import Mathlib

/-!
Verification development for a Rate-Monotonic (RM) fixed-priority
preemptive scheduling simulator.

The simulator releases periodic jobs, dispatches the active job with the
numerically smallest priority for one tick at a time, records a schedule
log, computes per-job response times and per-task worst-case response
times (WCRT), and skips idle stretches by jumping straight to the next
release instant.

The embedding below follows the source closely:

* `generate_execution_time` — the per-job execution-time sampler; the
  (already truncated-normal distributed) library draw is modelled by an
  explicit oracle value of type `ℚ`, rounded and clamped exactly as in
  the source.
* `Task` — one record per task, holding both the static parameters and
  the mutable state of the task's current job.
* `SchedState` — the scheduler's state: current time, the task list, the
  active-job list (indices standing for the Python object references),
  the next-release-time map, the schedule log, and the oracle cursor.
  It also carries `completions`, a ghost stream mirroring the source's
  per-completion report (task, completion instant, response time).
* `schedStep` — one iteration of the scheduler's while-loop body
  (release, dispatch/execute, completion, time advance).
* `schedLoop` / `rate_monotonic_scheduling` — the while-loop itself,
  defined by well-founded recursion on the remaining simulated time
  (the time advance is always at least 1).
* `schedRun` — a fuel-indexed evaluator, proved equal to `schedLoop`
  when given enough fuel; used to evaluate concrete scenarios.
-/

namespace RMSim

/-- The stream of truncated-normal draws consumed by the sampler: draw
number `n` of the process-wide random source.  Each value is the real
number returned by the sampling library, before rounding. -/
abbrev Oracle := Nat → ℚ

/-- A schedule-log label: either the named task ran for the unit tick
starting at the logged time, or the CPU was idle at that tick. -/
inductive LogEntry where
  | run (task_id : String)
  | idle
  deriving DecidableEq, Repr

/-- The execution-time sampler.  If `bcet = wcet` it returns
`max 1 bcet` without consuming randomness; otherwise the library draw
(a truncated-normal sample, modelled by `draw`) is rounded to the
nearest integer and clamped to at least 1. -/
def generate_execution_time (bcet wcet : Int) (draw : ℚ) : Int :=
  if bcet = wcet then max 1 bcet
  else max 1 (round draw)

/-- How many draws from the random source `generate_execution_time`
consumes: none in the degenerate `bcet = wcet` case, one otherwise. -/
def drawsConsumed (bcet wcet : Int) : Nat :=
  if bcet = wcet then 0 else 1

/-- A task: static parameters plus the mutable state of its current job. -/
structure Task where
  task_id : String
  period : Int
  deadline : Int
  priority : Int
  bcet : Int
  wcet : Int
  execution_time : Int
  release_time : Int
  remaining_time : Int
  completion_time : Option Int
  response_time : Option Int
  wcrt : Int
  deriving DecidableEq, Inhabited, Repr

/-- The task constructor: samples an initial execution time (consuming
`draw` when `bcet ≠ wcet`), sets `remaining_time` to it, and starts with
no completed job and `wcrt = 0`. -/
def Task.init (task_id : String) (bcet wcet period deadline priority : Int)
    (draw : ℚ) : Task :=
  { task_id := task_id, period := period, deadline := deadline,
    priority := priority, bcet := bcet, wcet := wcet,
    execution_time := generate_execution_time bcet wcet draw,
    release_time := 0,
    remaining_time := generate_execution_time bcet wcet draw,
    completion_time := none, response_time := none, wcrt := 0 }

/-- Release a new job of the task at `current_time`: resample the
execution time, reset the remaining time to it, and clear the
completion and response fields. -/
def Task.release_new_job (t : Task) (current_time : Int) (draw : ℚ) : Task :=
  { t with release_time := current_time,
           execution_time := generate_execution_time t.bcet t.wcet draw,
           remaining_time := generate_execution_time t.bcet t.wcet draw,
           completion_time := none,
           response_time := none }

/-- Whether the task's current job is released and unfinished. -/
def Task.is_ready (t : Task) (current_time : Int) : Bool :=
  decide (t.release_time ≤ current_time) && decide (0 < t.remaining_time)

/-- Execute the job for `time_units`: the remaining time is decremented
but floored at 0; the second component reports whether the job has just
reached 0 remaining time. -/
def Task.execute (t : Task) (time_units : Int) : Task × Bool :=
  let t2 := { t with remaining_time := max 0 (t.remaining_time - time_units) }
  (t2, t2.remaining_time == 0)

/-- On completion at `current_time`: record the completion time, set the
response time to completion minus release, and fold it into the task's
running worst-case response time. -/
def Task.calculate_response_time (t : Task) (current_time : Int) : Task :=
  { t with completion_time := some current_time,
           response_time := some (current_time - t.release_time),
           wcrt := max t.wcrt (current_time - t.release_time) }

/-- Minimum of a list of integers (`none` on the empty list), as the
source's `min(...)` over a nonempty Python list. -/
def listMin : List Int → Option Int
  | [] => none
  | x :: xs => some (xs.foldl min x)

/-- The time-advance step.  With active jobs, advance by 1.  Otherwise
jump to the earliest strictly future release instant; if there is none,
advance by 1.  The `tasks` argument is passed by the source but unused,
mirrored here. -/
def AdvanceTime (current_time : Int) (_tasks : List Task)
    (job_release_times : List Int) (active_jobs : List Nat) : Int :=
  if active_jobs ≠ [] then 1
  else
    match listMin (job_release_times.filter (fun v => decide (current_time < v))) with
    | some m => m - current_time
    | none => 1

/-- The scheduler's state.  `active_jobs` holds indices into `tasks`,
standing for the Python list of task-object references (the same task
object can appear more than once).  `releases` is the next-release-time
map keyed by task id.  `completions` is a ghost stream recording each
completion report of the source, as (task index, completion time,
response time) in order of occurrence.  `rng` is the cursor into the
draw oracle. -/
structure SchedState where
  current_time : Int
  tasks : List Task
  active_jobs : List Nat
  releases : String → Int
  log : List (Int × LogEntry)
  completions : List (Nat × Int × Int)
  rng : Nat

/-- The task stored at index `i` (indices used by the scheduler are
always in range; the default is never reached in a run). -/
def taskAt (ts : List Task) (i : Nat) : Task := ts.getD i default

/-- Priority of the task at index `i`. -/
def priAt (ts : List Task) (i : Nat) : Int := (taskAt ts i).priority

/-- Insert an index into a priority-sorted index list, after any entry
of equal priority (the stable-insert step). -/
def insertByPriority (ts : List Task) (i : Nat) : List Nat → List Nat
  | [] => [i]
  | j :: js =>
    if priAt ts i ≤ priAt ts j then i :: j :: js
    else j :: insertByPriority ts i js

/-- Stable sort of the active-job list by task priority, modelling
Python's stable `sorted(active_jobs, key=lambda t: t.priority)`:
equal-priority entries keep their relative order. -/
def sortByPriority (ts : List Task) : List Nat → List Nat
  | [] => []
  | i :: rest => insertByPriority ts i (sortByPriority ts rest)

/-- The state after task `t` (stored at index `i`) releases a new job at
the current time: the task's job state is reset, the index is appended
to the active list, the task's next release time advances by its
period, and the draw cursor moves past any consumed draw. -/
def releasedState (ω : Oracle) (s : SchedState) (i : Nat) (t : Task) : SchedState :=
  { s with tasks := s.tasks.set i (t.release_new_job s.current_time (ω s.rng)),
           active_jobs := s.active_jobs ++ [i],
           releases := fun id =>
             if id = t.task_id then s.releases t.task_id + t.period
             else s.releases id,
           rng := s.rng + drawsConsumed t.bcet t.wcet }

/-- The release step: walk the task list in definition order; every task
whose next release time equals the current time releases a new job, is
appended to the active list, and has its next release time advanced by
its period.  Consumes one oracle draw per non-degenerate release. -/
def releaseJobs (ω : Oracle) : List Nat → SchedState → SchedState
  | [], s => s
  | i :: rest, s =>
    match s.tasks.get? i with
    | none => releaseJobs ω rest s
    | some t =>
      if s.current_time = s.releases t.task_id then
        releaseJobs ω rest (releasedState ω s i t)
      else releaseJobs ω rest s

/-- The dispatch/execute/completion step: sort the active list by
priority; if it is empty log an idle tick, otherwise execute its head
for one tick and log it, and on completion compute the response time
(also recorded in the ghost `completions` stream) and drop the job from
the active list. -/
def dispatchStep (s : SchedState) : SchedState :=
  match sortByPriority s.tasks s.active_jobs with
  | [] =>
    { s with active_jobs := [],
             log := s.log ++ [(s.current_time, LogEntry.idle)] }
  | i :: rest =>
    if ((taskAt s.tasks i).execute 1).2 then
      { s with
        tasks := (s.tasks.set i ((taskAt s.tasks i).execute 1).1).set i
          (((taskAt s.tasks i).execute 1).1.calculate_response_time (s.current_time + 1)),
        active_jobs := rest,
        log := s.log ++ [(s.current_time, LogEntry.run (taskAt s.tasks i).task_id)],
        completions := s.completions
          ++ [(i, s.current_time + 1,
               s.current_time + 1 - ((taskAt s.tasks i).execute 1).1.release_time)] }
    else
      { s with tasks := s.tasks.set i ((taskAt s.tasks i).execute 1).1,
               active_jobs := i :: rest,
               log := s.log ++ [(s.current_time, LogEntry.run (taskAt s.tasks i).task_id)] }

/-- The values of the next-release-time map: one value per distinct task
id (the dict's values; only emptiness and the minimum of this list are
ever used, so its order is immaterial). -/
def releaseValues (s : SchedState) : List Int :=
  ((s.tasks.map Task.task_id).dedup).map s.releases

/-- One iteration of the scheduler loop's body: release, dispatch, then
advance the clock by `AdvanceTime`. -/
def schedStep (ω : Oracle) (s : SchedState) : SchedState :=
  let s1 := releaseJobs ω (List.range s.tasks.length) s
  let s2 := dispatchStep s1
  { s2 with current_time :=
      s.current_time + AdvanceTime s.current_time s2.tasks (releaseValues s2) s2.active_jobs }

/-- The scheduler's while-loop: iterate the body while
`current_time < simulation_time`.  Terminates because the time advance
is always at least 1 (proved inline below). -/
def schedLoop (ω : Oracle) (simulation_time : Int) (s : SchedState) : SchedState :=
  if s.current_time < simulation_time then
    schedLoop ω simulation_time (schedStep ω s)
  else s
termination_by (simulation_time - s.current_time).toNat
decreasing_by
  have hlow : ∀ (xs : List Int) (x c : Int), c < x → (∀ y ∈ xs, c < y) →
      c < xs.foldl min x := by
    intro xs
    induction xs with
    | nil => intro x c hx _; simpa using hx
    | cons y ys ih =>
      intro x c hx hall
      have hy : c < y := hall y (by simp)
      have hmin : c < min x y := lt_min hx hy
      exact ih (min x y) c hmin (fun z hz => hall z (by simp [hz]))
  have hadv : ∀ (c : Int) (ts : List Task) (vals : List Int) (act : List Nat),
      1 ≤ AdvanceTime c ts vals act := by
    intro c ts vals act
    unfold AdvanceTime
    by_cases hact : act ≠ []
    · simp [hact]
    · simp only [hact, if_false]
      cases hl : vals.filter (fun v => decide (c < v)) with
      | nil => simp [listMin, hl]
      | cons x xs =>
        have hall : ∀ y ∈ x :: xs, c < y := by
          intro y hy
          have hyf : y ∈ vals.filter (fun v => decide (c < v)) := by
            rw [hl]; exact hy
          simpa using List.of_mem_filter hyf
        have hx : c < x := hall x (by simp)
        have hfold : c < xs.foldl min x :=
          hlow xs x c hx (fun y hy => hall y (by simp [hy]))
        simp only [listMin, hl]
        omega
  have hcur : (schedStep ω s).current_time
      = s.current_time
        + AdvanceTime s.current_time
            (dispatchStep (releaseJobs ω (List.range s.tasks.length) s)).tasks
            (releaseValues (dispatchStep (releaseJobs ω (List.range s.tasks.length) s)))
            (dispatchStep (releaseJobs ω (List.range s.tasks.length) s)).active_jobs := rfl
  have h1 := hadv s.current_time
      (dispatchStep (releaseJobs ω (List.range s.tasks.length) s)).tasks
      (releaseValues (dispatchStep (releaseJobs ω (List.range s.tasks.length) s)))
      (dispatchStep (releaseJobs ω (List.range s.tasks.length) s)).active_jobs
  simp only [hcur]
  omega

/-- Fuel-indexed evaluator for the scheduler loop: runs at most `fuel`
iterations of the body.  Equal to `schedLoop` once the fuel covers the
remaining simulated time. -/
def schedRun (ω : Oracle) (simulation_time : Int) : Nat → SchedState → SchedState
  | 0, s => s
  | fuel + 1, s =>
    if s.current_time < simulation_time then
      schedRun ω simulation_time fuel (schedStep ω s)
    else s

/-- The scheduler's initial state: time 0, no active jobs, every next
release time 0, empty log. -/
def initState (tasks : List Task) : SchedState :=
  { current_time := 0, tasks := tasks, active_jobs := [],
    releases := fun _ => 0, log := [], completions := [], rng := 0 }

/-- Run the Rate-Monotonic simulation from the initial state up to the
horizon; the result carries the schedule log and the final task states
(whose `wcrt` fields are the reported worst-case response times). -/
def rate_monotonic_scheduling (ω : Oracle) (tasks : List Task)
    (simulation_time : Int) : SchedState :=
  schedLoop ω simulation_time (initState tasks)

/-- The reported WCRT summary: task id to observed worst-case response
time, in task order. -/
def wcrtMap (s : SchedState) : List (String × Int) :=
  s.tasks.map (fun t => (t.task_id, t.wcrt))

/-- The wcrt of the task stored at index `j`. -/
def wcrtAt (s : SchedState) (j : Nat) : Int := (taskAt s.tasks j).wcrt

/-- The response times recorded in the completion stream for the task
at index `j`, in completion order. -/
def responsesOf (j : Nat) (l : List (Nat × Int × Int)) : List Int :=
  l.filterMap (fun p => if p.1 = j then some p.2.2 else none)

/-- All tasks of the state are degenerate (`bcet = wcet`). -/
def degenState (s : SchedState) : Prop := ∀ t ∈ s.tasks, t.bcet = t.wcet

/-- The response-time bookkeeping invariant: active indices are in
range; every task's release time is at or before the clock, and a set
response time is coherent (at least 1, and equal to the recorded
completion time minus the release time); every recorded completion has
response at least 1; and every task's wcrt equals the running maximum
(0 if none) of its recorded completions' response times. -/
def RespInv (s : SchedState) : Prop :=
  (∀ i ∈ s.active_jobs, i < s.tasks.length) ∧
  (∀ t ∈ s.tasks, t.release_time ≤ s.current_time ∧
    ∀ r : Int, t.response_time = some r →
      1 ≤ r ∧ ∃ c, t.completion_time = some c ∧ r = c - t.release_time) ∧
  (∀ p ∈ s.completions, 1 ≤ p.2.2) ∧
  (∀ j : Nat, wcrtAt s j = (responsesOf j s.completions).foldl max 0)

/-- One row of the tabular task-definition input. -/
structure CsvRow where
  task_id : String
  bcet : Int
  wcet : Int
  period : Int
  deadline : Int
  priority : Int

/-- Load a task list from tabular rows: one `Task.init` per row, in row
order, threading the draw cursor.  No validation is performed. -/
def load_tasks_from_csv (ω : Oracle) : List CsvRow → Nat → List Task
  | [], _ => []
  | r :: rest, rng =>
    Task.init r.task_id r.bcet r.wcet r.period r.deadline r.priority (ω rng)
      :: load_tasks_from_csv ω rest (rng + drawsConsumed r.bcet r.wcet)

/-- The all-zero draw stream, used to instantiate concrete scenarios
whose tasks are degenerate (`bcet = wcet`), where draws are never used. -/
def zeroOracle : Oracle := fun _ => 0

/-- Task A of the two-task scenario: period 4, bcet = wcet = 1, priority 1. -/
def taskA : Task := Task.init "A" 1 1 4 4 1 0

/-- Task B of the two-task scenario: period 6, bcet = wcet = 2, priority 2. -/
def taskB : Task := Task.init "B" 2 2 6 6 2 0

/-- The single task of the idle scenario: period 10, bcet = wcet = 1. -/
def taskT : Task := Task.init "T" 1 1 10 10 1 0

/-- A configuration the spec calls invalid: period 0 (≤ 0). -/
def taskZ : Task := Task.init "T" 1 1 0 0 1 0

/-- Input rows violating every configuration rule the spec lists except
`bcet > wcet`: duplicate task id, duplicate priority, period 0. -/
def badRows : List CsvRow :=
  [{ task_id := "T", bcet := 1, wcet := 1, period := 0, deadline := 5, priority := 1 },
   { task_id := "T", bcet := 1, wcet := 1, period := 0, deadline := 5, priority := 1 }]

/-- The tasks the loader builds from `badRows` (no validation rejects them). -/
def badTasks : List Task := load_tasks_from_csv zeroOracle badRows 0

/-! ### Basic facts about the task operations -/

/-- The sampler always returns at least 1. -/
theorem generate_execution_time_one_le (bcet wcet : Int) (draw : ℚ) :
    1 ≤ generate_execution_time bcet wcet draw := by
  unfold generate_execution_time
  split <;> simp

/-- In the degenerate case the sampler ignores the draw. -/
theorem generate_execution_time_degen {bcet wcet : Int} (h : bcet = wcet)
    (draw : ℚ) : generate_execution_time bcet wcet draw = max 1 bcet := by
  simp [generate_execution_time, h]

/-! ### Minimum of an integer list -/

theorem foldl_min_mem : ∀ (xs : List Int) (x : Int), xs.foldl min x ∈ x :: xs := by
  intro xs
  induction xs with
  | nil => intro x; simp
  | cons y ys ih =>
    intro x
    have h := ih (min x y)
    rcases List.mem_cons.mp h with h1 | h1
    · rcases min_choice x y with h2 | h2 <;> rw [List.foldl_cons, h1, h2] <;> simp
    · simp only [List.foldl_cons]
      exact List.mem_cons.mpr (Or.inr (List.mem_cons.mpr (Or.inr h1)))

theorem foldl_min_le : ∀ (xs : List Int) (x y : Int), y ∈ x :: xs →
    xs.foldl min x ≤ y := by
  intro xs
  induction xs with
  | nil => intro x y hy; simp at hy; simp [hy]
  | cons z zs ih =>
    intro x y hy
    have hhead : zs.foldl min (min x z) ≤ min x z := ih _ _ (by simp)
    simp only [List.foldl_cons]
    rcases List.mem_cons.mp hy with h1 | h1
    · subst h1; exact le_trans hhead (min_le_left _ _)
    · rcases List.mem_cons.mp h1 with h2 | h2
      · subst h2; exact le_trans hhead (min_le_right _ _)
      · exact ih _ _ (List.mem_cons.mpr (Or.inr h2))

theorem listMin_mem {l : List Int} {m : Int} (h : listMin l = some m) : m ∈ l := by
  cases l with
  | nil => simp [listMin] at h
  | cons x xs =>
    simp only [listMin, Option.some.injEq] at h
    exact h ▸ foldl_min_mem xs x

theorem listMin_le {l : List Int} {m : Int} (h : listMin l = some m) :
    ∀ y ∈ l, m ≤ y := by
  cases l with
  | nil => simp [listMin] at h
  | cons x xs =>
    simp only [listMin, Option.some.injEq] at h
    exact fun y hy => h ▸ foldl_min_le xs x y hy

theorem listMin_of_ne_nil {l : List Int} (h : l ≠ []) :
    ∃ m, listMin l = some m := by
  cases l with
  | nil => exact absurd rfl h
  | cons x xs => exact ⟨xs.foldl min x, rfl⟩

/-! ### The time-advance step -/

theorem AdvanceTime_of_active {c : Int} {ts : List Task} {vals : List Int}
    {act : List Nat} (h : act ≠ []) : AdvanceTime c ts vals act = 1 := by
  simp [AdvanceTime, h]

theorem AdvanceTime_idle_some {c : Int} {ts : List Task} {vals : List Int} {m : Int}
    (h : listMin (vals.filter (fun v => decide (c < v))) = some m) :
    AdvanceTime c ts vals [] = m - c := by
  simp [AdvanceTime, h]

theorem AdvanceTime_idle_none {c : Int} {ts : List Task} {vals : List Int}
    (h : listMin (vals.filter (fun v => decide (c < v))) = none) :
    AdvanceTime c ts vals [] = 1 := by
  simp [AdvanceTime, h]

/-- The clock always advances by at least one tick. -/
theorem AdvanceTime_one_le (c : Int) (ts : List Task) (vals : List Int)
    (act : List Nat) : 1 ≤ AdvanceTime c ts vals act := by
  by_cases hact : act ≠ []
  · rw [AdvanceTime_of_active hact]
  · rw [not_not] at hact
    subst hact
    cases hmin : listMin (vals.filter (fun v => decide (c < v))) with
    | none => rw [AdvanceTime_idle_none hmin]
    | some m =>
      rw [AdvanceTime_idle_some hmin]
      have hmem := listMin_mem hmin
      have : c < m := by simpa using (List.mem_filter.mp hmem).2
      omega

/-! ### Structure of the release step -/

@[simp] theorem releasedState_current (ω : Oracle) (s : SchedState) (i : Nat)
    (t : Task) : (releasedState ω s i t).current_time = s.current_time := rfl

@[simp] theorem releasedState_tasks (ω : Oracle) (s : SchedState) (i : Nat)
    (t : Task) : (releasedState ω s i t).tasks
      = s.tasks.set i (t.release_new_job s.current_time (ω s.rng)) := rfl

@[simp] theorem releasedState_active (ω : Oracle) (s : SchedState) (i : Nat)
    (t : Task) : (releasedState ω s i t).active_jobs = s.active_jobs ++ [i] := rfl

@[simp] theorem releasedState_log (ω : Oracle) (s : SchedState) (i : Nat)
    (t : Task) : (releasedState ω s i t).log = s.log := rfl

@[simp] theorem releasedState_completions (ω : Oracle) (s : SchedState) (i : Nat)
    (t : Task) : (releasedState ω s i t).completions = s.completions := rfl

theorem releasedState_releases (ω : Oracle) (s : SchedState) (i : Nat)
    (t : Task) : (releasedState ω s i t).releases
      = fun id => if id = t.task_id then s.releases t.task_id + t.period
                  else s.releases id := rfl

/-- The release step leaves the clock, the log, the completion stream
and the number of tasks unchanged, and only appends to the active list. -/
theorem releaseJobs_basic (ω : Oracle) : ∀ (l : List Nat) (s : SchedState),
    (releaseJobs ω l s).current_time = s.current_time ∧
    (releaseJobs ω l s).log = s.log ∧
    (releaseJobs ω l s).completions = s.completions ∧
    (releaseJobs ω l s).tasks.length = s.tasks.length ∧
    ∃ ext, (releaseJobs ω l s).active_jobs = s.active_jobs ++ ext := by
  intro l
  induction l with
  | nil => intro s; exact ⟨rfl, rfl, rfl, rfl, [], by simp [releaseJobs]⟩
  | cons i rest ih =>
    intro s
    unfold releaseJobs
    cases hget : s.tasks.get? i with
    | none => exact ih s
    | some t =>
      dsimp only
      by_cases hrel : s.current_time = s.releases t.task_id
      · rw [if_pos hrel]
        obtain ⟨h1, h2, h3, h4, ext, h5⟩ := ih (releasedState ω s i t)
        refine ⟨h1, h2, h3, ?_, [i] ++ ext, ?_⟩
        · rw [h4]; simp
        · rw [h5]; simp
      · simp only [if_neg hrel]
        exact ih s

/-! ### The priority sort -/

theorem insertByPriority_ne_nil (ts : List Task) (i : Nat) :
    ∀ l : List Nat, insertByPriority ts i l ≠ [] := by
  intro l
  cases l with
  | nil => simp [insertByPriority]
  | cons j js =>
    unfold insertByPriority
    split <;> simp

theorem insertByPriority_mem (ts : List Task) (i : Nat) :
    ∀ (l : List Nat) (j : Nat), j ∈ insertByPriority ts i l ↔ j = i ∨ j ∈ l := by
  intro l
  induction l with
  | nil => intro j; simp [insertByPriority]
  | cons k ks ih =>
    intro j
    unfold insertByPriority
    split
    · simp
    · simp only [List.mem_cons, ih j]
      tauto

theorem sortByPriority_mem (ts : List Task) :
    ∀ (l : List Nat) (j : Nat), j ∈ sortByPriority ts l ↔ j ∈ l := by
  intro l
  induction l with
  | nil => intro j; simp [sortByPriority]
  | cons k ks ih =>
    intro j
    simp only [sortByPriority, insertByPriority_mem, ih j, List.mem_cons]

theorem sortByPriority_eq_nil_iff (ts : List Task) (l : List Nat) :
    sortByPriority ts l = [] ↔ l = [] := by
  constructor
  · intro h
    cases l with
    | nil => rfl
    | cons k ks => exact absurd h (insertByPriority_ne_nil ts k (sortByPriority ts ks))
  · intro h
    simp [h, sortByPriority]

/-- The head of the priority-sorted active list has minimal priority. -/
theorem sortByPriority_head_min (ts : List Task) :
    ∀ (l : List Nat) (i : Nat) (rest : List Nat),
      sortByPriority ts l = i :: rest → ∀ j ∈ l, priAt ts i ≤ priAt ts j := by
  intro l
  induction l with
  | nil => intro i rest h; simp [sortByPriority] at h
  | cons k ks ih =>
    intro i rest h j hj
    simp only [sortByPriority] at h
    cases hm : sortByPriority ts ks with
    | nil =>
      have hks : ks = [] := (sortByPriority_eq_nil_iff ts ks).mp hm
      rw [hm] at h
      simp only [insertByPriority] at h
      injection h with h1 h2
      subst hks
      simp only [List.mem_cons, List.not_mem_nil, or_false] at hj
      subst hj
      rw [h1]
    | cons a as =>
      rw [hm] at h
      unfold insertByPriority at h
      split at h
      · rename_i hka
        injection h with h1 h2
        subst h1
        rcases List.mem_cons.mp hj with hjk | hjks
        · subst hjk; exact le_refl _
        · exact le_trans hka (ih a as hm j hjks)
      · rename_i hka
        injection h with h1 h2
        subst h1
        rcases List.mem_cons.mp hj with hjk | hjks
        · subst hjk; exact le_of_lt (lt_of_not_le hka)
        · exact ih a as hm j hjks

/-! ### Structure of the dispatch step -/

/-- Dispatch equation: idle branch. -/
theorem dispatchStep_eq_idle {s : SchedState}
    (h : sortByPriority s.tasks s.active_jobs = []) :
    dispatchStep s =
      { s with active_jobs := [],
               log := s.log ++ [(s.current_time, LogEntry.idle)] } := by
  unfold dispatchStep
  rw [h]

/-- Dispatch equation: the head job runs one tick and finishes. -/
theorem dispatchStep_eq_fin {s : SchedState} {i : Nat} {rest : List Nat}
    (h : sortByPriority s.tasks s.active_jobs = i :: rest)
    (hfin : ((taskAt s.tasks i).execute 1).2 = true) :
    dispatchStep s =
      { s with
        tasks := (s.tasks.set i ((taskAt s.tasks i).execute 1).1).set i
          (((taskAt s.tasks i).execute 1).1.calculate_response_time (s.current_time + 1)),
        active_jobs := rest,
        log := s.log ++ [(s.current_time, LogEntry.run (taskAt s.tasks i).task_id)],
        completions := s.completions
          ++ [(i, s.current_time + 1,
               s.current_time + 1 - ((taskAt s.tasks i).execute 1).1.release_time)] } := by
  unfold dispatchStep
  rw [h]
  simp only [hfin, if_true]

/-- Dispatch equation: the head job runs one tick without finishing. -/
theorem dispatchStep_eq_nofin {s : SchedState} {i : Nat} {rest : List Nat}
    (h : sortByPriority s.tasks s.active_jobs = i :: rest)
    (hfin : ((taskAt s.tasks i).execute 1).2 = false) :
    dispatchStep s =
      { s with tasks := s.tasks.set i ((taskAt s.tasks i).execute 1).1,
               active_jobs := i :: rest,
               log := s.log ++ [(s.current_time, LogEntry.run (taskAt s.tasks i).task_id)] } := by
  unfold dispatchStep
  rw [h]
  simp only [hfin, if_false, Bool.false_eq_true]

/-- The dispatch step leaves the clock, the release map, the draw cursor
and the number of tasks unchanged, and appends exactly one log entry:
an idle entry when the active list is empty, a run entry otherwise. -/
theorem dispatchStep_basic (s : SchedState) :
    (dispatchStep s).current_time = s.current_time ∧
    (dispatchStep s).releases = s.releases ∧
    (dispatchStep s).rng = s.rng ∧
    (dispatchStep s).tasks.length = s.tasks.length ∧
    ∃ e, (dispatchStep s).log = s.log ++ [(s.current_time, e)] ∧
      (e = LogEntry.idle ↔ s.active_jobs = []) := by
  cases hs : sortByPriority s.tasks s.active_jobs with
  | nil =>
    rw [dispatchStep_eq_idle hs]
    refine ⟨rfl, rfl, rfl, rfl, LogEntry.idle, rfl, ?_⟩
    simp [← sortByPriority_eq_nil_iff s.tasks, hs]
  | cons i rest =>
    have hne : s.active_jobs ≠ [] := by
      intro hcon
      rw [hcon] at hs
      simp [sortByPriority] at hs
    cases hfin : ((taskAt s.tasks i).execute 1).2 with
    | true =>
      rw [dispatchStep_eq_fin hs hfin]
      exact ⟨rfl, rfl, rfl, by simp, LogEntry.run (taskAt s.tasks i).task_id, rfl,
        by simp [hne]⟩
    | false =>
      rw [dispatchStep_eq_nofin hs hfin]
      exact ⟨rfl, rfl, rfl, by simp, LogEntry.run (taskAt s.tasks i).task_id, rfl,
        by simp [hne]⟩

/-! ### Indexed task access -/

theorem taskAt_set_ne {ts : List Task} {i j : Nat} {a : Task} (h : i ≠ j) :
    taskAt (ts.set i a) j = taskAt ts j := by
  simp [taskAt, List.getD_eq_getElem?_getD, List.getElem?_set_ne h]

theorem taskAt_set_self {ts : List Task} {i : Nat} {a : Task}
    (h : i < ts.length) : taskAt (ts.set i a) i = a := by
  simp [taskAt, List.getD_eq_getElem?_getD, List.getElem?_set_eq_of_lt a h]

theorem set_out_of_range {ts : List Task} {i : Nat} {a : Task}
    (h : ¬ i < ts.length) : ts.set i a = ts :=
  List.set_eq_of_length_le (by omega)

theorem taskAt_mem {ts : List Task} {i : Nat} (h : i < ts.length) :
    taskAt ts i ∈ ts := by
  rw [taskAt, List.getD_eq_getElem ts default h]
  exact List.getElem_mem h

/-! ### The loop: one-step clock growth, unfolding, fuel bridge -/

/-- One loop iteration advances the clock by exactly the `AdvanceTime`
amount computed on the post-dispatch state. -/
theorem schedStep_current (ω : Oracle) (s : SchedState) :
    (schedStep ω s).current_time
      = s.current_time
        + AdvanceTime s.current_time
            (dispatchStep (releaseJobs ω (List.range s.tasks.length) s)).tasks
            (releaseValues (dispatchStep (releaseJobs ω (List.range s.tasks.length) s)))
            (dispatchStep (releaseJobs ω (List.range s.tasks.length) s)).active_jobs := rfl

/-- Every loop iteration advances the clock by at least one tick. -/
theorem schedStep_current_le (ω : Oracle) (s : SchedState) :
    s.current_time + 1 ≤ (schedStep ω s).current_time := by
  rw [schedStep_current]
  have := AdvanceTime_one_le s.current_time
    (dispatchStep (releaseJobs ω (List.range s.tasks.length) s)).tasks
    (releaseValues (dispatchStep (releaseJobs ω (List.range s.tasks.length) s)))
    (dispatchStep (releaseJobs ω (List.range s.tasks.length) s)).active_jobs
  omega

/-- Loop unfolding: while the horizon is not reached, iterate. -/
theorem schedLoop_eq_step (ω : Oracle) (sim : Int) (s : SchedState)
    (h : s.current_time < sim) :
    schedLoop ω sim s = schedLoop ω sim (schedStep ω s) := by
  rw [schedLoop]
  simp [h]

/-- Loop exit: once `current_time ≥ simulation_time` the state is final. -/
theorem schedLoop_eq_done (ω : Oracle) (sim : Int) (s : SchedState)
    (h : ¬ s.current_time < sim) :
    schedLoop ω sim s = s := by
  rw [schedLoop]
  simp [h]

/-- The while-loop agrees with the fuel evaluator whenever the fuel is
at least the remaining simulated time. -/
theorem schedLoop_eq_schedRun (ω : Oracle) (sim : Int) :
    ∀ (fuel : Nat) (s : SchedState), (sim - s.current_time).toNat ≤ fuel →
      schedLoop ω sim s = schedRun ω sim fuel s := by
  intro fuel
  induction fuel with
  | zero =>
    intro s h
    have hns : ¬ s.current_time < sim := by omega
    rw [schedLoop_eq_done ω sim s hns]
    rfl
  | succ fuel ih =>
    intro s h
    by_cases hlt : s.current_time < sim
    · rw [schedLoop_eq_step ω sim s hlt]
      have hs := schedStep_current_le ω s
      rw [ih (schedStep ω s) (by omega)]
      simp [schedRun, hlt]
    · rw [schedLoop_eq_done ω sim s hlt]
      simp [schedRun, hlt]

/-- Any property preserved by one loop iteration holds of the fuel
evaluator's result. -/
theorem schedRun_invariant (ω : Oracle) (sim : Int) (Q : SchedState → Prop)
    (hstep : ∀ s, Q s → Q (schedStep ω s)) :
    ∀ (fuel : Nat) (s : SchedState), Q s → Q (schedRun ω sim fuel s) := by
  intro fuel
  induction fuel with
  | zero => intro s hq; exact hq
  | succ fuel ih =>
    intro s hq
    by_cases hlt : s.current_time < sim
    · simpa [schedRun, hlt] using ih (schedStep ω s) (hstep s hq)
    · simpa [schedRun, hlt] using hq

/-- Any property preserved by one loop iteration holds of the loop's
final state. -/
theorem schedLoop_invariant (ω : Oracle) (sim : Int) (Q : SchedState → Prop)
    (hstep : ∀ s, Q s → Q (schedStep ω s)) :
    ∀ s : SchedState, Q s → Q (schedLoop ω sim s) := by
  intro s hq
  rw [schedLoop_eq_schedRun ω sim (sim - s.current_time).toNat s (le_refl _)]
  exact schedRun_invariant ω sim Q hstep _ s hq

/-- With enough fuel the evaluator reaches the horizon. -/
theorem schedRun_final_ge (ω : Oracle) (sim : Int) :
    ∀ (fuel : Nat) (s : SchedState), (sim - s.current_time).toNat ≤ fuel →
      sim ≤ (schedRun ω sim fuel s).current_time := by
  intro fuel
  induction fuel with
  | zero => intro s h; simpa [schedRun] using by omega
  | succ fuel ih =>
    intro s h
    by_cases hlt : s.current_time < sim
    · have hs := schedStep_current_le ω s
      simpa [schedRun, hlt] using ih (schedStep ω s) (by omega)
    · simpa [schedRun, hlt] using by omega

/-- The loop ends with the clock at or past the horizon. -/
theorem schedLoop_final_ge (ω : Oracle) (sim : Int) (s : SchedState) :
    sim ≤ (schedLoop ω sim s).current_time := by
  rw [schedLoop_eq_schedRun ω sim (sim - s.current_time).toNat s (le_refl _)]
  exact schedRun_final_ge ω sim _ s (le_refl _)

/-! ### Oracle irrelevance for degenerate task sets

When every task has `bcet = wcet` the sampler never consumes a draw, so
the whole run is independent of the oracle. -/

theorem release_new_job_oracle {t : Task} (h : t.bcet = t.wcet)
    (c : Int) (d d2 : ℚ) : t.release_new_job c d = t.release_new_job c d2 := by
  simp [Task.release_new_job, generate_execution_time_degen h]

theorem releaseJobs_oracle_degen (ω ω2 : Oracle) :
    ∀ (l : List Nat) (s : SchedState), degenState s →
      releaseJobs ω l s = releaseJobs ω2 l s ∧ degenState (releaseJobs ω l s) := by
  intro l
  induction l with
  | nil => intro s h; exact ⟨rfl, h⟩
  | cons i rest ih =>
    intro s h
    unfold releaseJobs
    cases hget : s.tasks.get? i with
    | none => exact ih s h
    | some t =>
      dsimp only
      by_cases hrel : s.current_time = s.releases t.task_id
      · rw [if_pos hrel, if_pos hrel]
        have htw : t.bcet = t.wcet := h t (List.get?_mem hget)
        have hst : releasedState ω s i t = releasedState ω2 s i t := by
          unfold releasedState
          rw [release_new_job_oracle htw s.current_time (ω s.rng) (ω2 s.rng)]
        rw [hst]
        apply ih
        intro u hu
        rw [releasedState_tasks] at hu
        rcases List.mem_or_eq_of_mem_set hu with hu1 | hu1
        · exact h u hu1
        · subst hu1; simpa [Task.release_new_job] using htw
      · rw [if_neg hrel, if_neg hrel]
        exact ih s h

theorem dispatchStep_degen {s : SchedState} (h : degenState s) :
    degenState (dispatchStep s) := by
  cases hs : sortByPriority s.tasks s.active_jobs with
  | nil => rw [dispatchStep_eq_idle hs]; exact h
  | cons i rest =>
    have hti : (taskAt s.tasks i).bcet = (taskAt s.tasks i).wcet := by
      by_cases hi : i < s.tasks.length
      · exact h _ (taskAt_mem hi)
      · rw [taskAt, List.getD_eq_getElem?_getD, List.getElem?_eq_none (by omega)]
        rfl
    cases hfin : ((taskAt s.tasks i).execute 1).2 with
    | true =>
      rw [dispatchStep_eq_fin hs hfin]
      intro u hu
      rcases List.mem_or_eq_of_mem_set hu with hu1 | hu1
      · rcases List.mem_or_eq_of_mem_set hu1 with hu2 | hu2
        · exact h u hu2
        · subst hu2; simpa [Task.execute] using hti
      · subst hu1
        simpa [Task.execute, Task.calculate_response_time] using hti
    | false =>
      rw [dispatchStep_eq_nofin hs hfin]
      intro u hu
      rcases List.mem_or_eq_of_mem_set hu with hu1 | hu1
      · exact h u hu1
      · subst hu1; simpa [Task.execute] using hti

theorem schedStep_oracle_degen (ω ω2 : Oracle) (s : SchedState)
    (h : degenState s) :
    schedStep ω s = schedStep ω2 s ∧ degenState (schedStep ω s) := by
  obtain ⟨heq, hdeg1⟩ :=
    releaseJobs_oracle_degen ω ω2 (List.range s.tasks.length) s h
  constructor
  · unfold schedStep
    rw [heq]
  · have hdeg2 := dispatchStep_degen hdeg1
    intro u hu
    exact hdeg2 u hu

theorem schedRun_oracle_degen (ω ω2 : Oracle) (sim : Int) :
    ∀ (fuel : Nat) (s : SchedState), degenState s →
      schedRun ω sim fuel s = schedRun ω2 sim fuel s := by
  intro fuel
  induction fuel with
  | zero => intro s _; rfl
  | succ fuel ih =>
    intro s h
    obtain ⟨heq, hdeg⟩ := schedStep_oracle_degen ω ω2 s h
    by_cases hlt : s.current_time < sim
    · simp only [schedRun, if_pos hlt]
      rw [← heq]
      exact ih (schedStep ω s) hdeg
    · simp only [schedRun, if_neg hlt]

/-- A run over a degenerate task set does not depend on the oracle. -/
theorem rate_monotonic_scheduling_oracle_degen (ω ω2 : Oracle)
    (tasks : List Task) (sim : Int) (h : ∀ t ∈ tasks, t.bcet = t.wcet) :
    rate_monotonic_scheduling ω tasks sim = rate_monotonic_scheduling ω2 tasks sim := by
  unfold rate_monotonic_scheduling
  rw [schedLoop_eq_schedRun ω sim (sim - (initState tasks).current_time).toNat _ (le_refl _),
      schedLoop_eq_schedRun ω2 sim (sim - (initState tasks).current_time).toNat _ (le_refl _)]
  exact schedRun_oracle_degen ω ω2 sim _ (initState tasks) h

/-! ### Non-negativity of remaining time -/

theorem releaseJobs_remaining_nonneg (ω : Oracle) :
    ∀ (l : List Nat) (s : SchedState),
      (∀ t ∈ s.tasks, 0 ≤ t.remaining_time) →
      ∀ t ∈ (releaseJobs ω l s).tasks, 0 ≤ t.remaining_time := by
  intro l
  induction l with
  | nil => intro s h; exact h
  | cons i rest ih =>
    intro s h
    unfold releaseJobs
    cases hget : s.tasks.get? i with
    | none => exact ih s h
    | some t =>
      dsimp only
      by_cases hrel : s.current_time = s.releases t.task_id
      · rw [if_pos hrel]
        apply ih
        intro u hu
        rw [releasedState_tasks] at hu
        rcases List.mem_or_eq_of_mem_set hu with hu1 | hu1
        · exact h u hu1
        · subst hu1
          have := generate_execution_time_one_le t.bcet t.wcet (ω s.rng)
          simp only [Task.release_new_job]
          omega
      · rw [if_neg hrel]
        exact ih s h

theorem dispatchStep_remaining_nonneg (s : SchedState)
    (h : ∀ t ∈ s.tasks, 0 ≤ t.remaining_time) :
    ∀ t ∈ (dispatchStep s).tasks, 0 ≤ t.remaining_time := by
  cases hs : sortByPriority s.tasks s.active_jobs with
  | nil => rw [dispatchStep_eq_idle hs]; exact h
  | cons i rest =>
    cases hfin : ((taskAt s.tasks i).execute 1).2 with
    | true =>
      rw [dispatchStep_eq_fin hs hfin]
      intro u hu
      rcases List.mem_or_eq_of_mem_set hu with hu1 | hu1
      · rcases List.mem_or_eq_of_mem_set hu1 with hu2 | hu2
        · exact h u hu2
        · subst hu2; simp [Task.execute]
      · subst hu1; simp [Task.execute, Task.calculate_response_time]
    | false =>
      rw [dispatchStep_eq_nofin hs hfin]
      intro u hu
      rcases List.mem_or_eq_of_mem_set hu with hu1 | hu1
      · exact h u hu1
      · subst hu1; simp [Task.execute]

theorem schedStep_remaining_nonneg (ω : Oracle) (s : SchedState)
    (h : ∀ t ∈ s.tasks, 0 ≤ t.remaining_time) :
    ∀ t ∈ (schedStep ω s).tasks, 0 ≤ t.remaining_time := by
  intro u hu
  exact dispatchStep_remaining_nonneg _
    (releaseJobs_remaining_nonneg ω _ s h) u hu

/-! ### Release-map invariants (for the no-idle analysis) -/

/-- The release step preserves the task id stored at every index. -/
theorem releaseJobs_ids (ω : Oracle) :
    ∀ (l : List Nat) (s : SchedState) (j : Nat),
      ((releaseJobs ω l s).tasks.get? j).map Task.task_id
        = (s.tasks.get? j).map Task.task_id := by
  intro l
  induction l with
  | nil => intro s j; rfl
  | cons i rest ih =>
    intro s j
    unfold releaseJobs
    cases hget : s.tasks.get? i with
    | none => exact ih s j
    | some t =>
      dsimp only
      by_cases hrel : s.current_time = s.releases t.task_id
      · rw [if_pos hrel, ih]
        rw [releasedState_tasks]
        by_cases hij : i = j
        · subst hij
          obtain ⟨hlen, -⟩ := List.getElem?_eq_some.mp (List.get?_eq_getElem? .. ▸ hget)
          rw [List.get?_eq_getElem?, List.get?_eq_getElem?,
              List.getElem?_set_eq_of_lt _ hlen, ← List.get?_eq_getElem?, hget]
          rfl
        · rw [List.get?_eq_getElem?, List.getElem?_set_ne hij, ← List.get?_eq_getElem?]
      · rw [if_neg hrel]
        exact ih s j

/-- Release-map bounds through the release step: entries stay at or
above the current time, entries strictly above stay strictly above,
every processed index ends strictly above, and periods are preserved. -/
theorem releaseJobs_releases (ω : Oracle) :
    ∀ (l : List Nat) (s : SchedState),
      (∀ t ∈ s.tasks, s.current_time ≤ s.releases t.task_id) →
      (∀ t ∈ s.tasks, 1 ≤ t.period) →
      (∀ t ∈ (releaseJobs ω l s).tasks,
          s.current_time ≤ (releaseJobs ω l s).releases t.task_id) ∧
      (∀ id : String, s.current_time < s.releases id →
          s.current_time < (releaseJobs ω l s).releases id) ∧
      (∀ i ∈ l, ∀ t : Task, (releaseJobs ω l s).tasks.get? i = some t →
          s.current_time < (releaseJobs ω l s).releases t.task_id) ∧
      (∀ t ∈ (releaseJobs ω l s).tasks, 1 ≤ t.period) := by
  intro l
  induction l with
  | nil =>
    intro s hA hP
    exact ⟨hA, fun id h => h, by simp, hP⟩
  | cons i rest ih =>
    intro s hA hP
    unfold releaseJobs
    cases hget : s.tasks.get? i with
    | none =>
      obtain ⟨c1, c2, c3, c4⟩ := ih s hA hP
      refine ⟨c1, c2, ?_, c4⟩
      intro i0 hi0 t ht
      rcases List.mem_cons.mp hi0 with h0 | h0
      · subst h0
        have hids := releaseJobs_ids ω rest s i0
        rw [ht, hget] at hids
        simp at hids
      · exact c3 i0 h0 t ht
    | some t =>
      dsimp only
      have htmem : t ∈ s.tasks := List.get?_mem hget
      have htper : 1 ≤ t.period := hP t htmem
      by_cases hrel : s.current_time = s.releases t.task_id
      · rw [if_pos hrel]
        have hA1 : ∀ u ∈ (releasedState ω s i t).tasks,
            (releasedState ω s i t).current_time
              ≤ (releasedState ω s i t).releases u.task_id := by
          intro u hu
          rw [releasedState_tasks] at hu
          simp only [releasedState_current, releasedState_releases]
          rcases List.mem_or_eq_of_mem_set hu with hu1 | hu1
          · by_cases hid : u.task_id = t.task_id
            · rw [if_pos hid]
              omega
            · rw [if_neg hid]
              exact hA u hu1
          · subst hu1
            have hid : (t.release_new_job s.current_time (ω s.rng)).task_id
                = t.task_id := rfl
            rw [if_pos hid]
            omega
        have hP1 : ∀ u ∈ (releasedState ω s i t).tasks, 1 ≤ u.period := by
          intro u hu
          rw [releasedState_tasks] at hu
          rcases List.mem_or_eq_of_mem_set hu with hu1 | hu1
          · exact hP u hu1
          · subst hu1
            exact htper
        obtain ⟨c1, c2, c3, c4⟩ := ih (releasedState ω s i t) hA1 hP1
        rw [releasedState_current] at c1 c2 c3
        have hmono : ∀ id : String, s.current_time < s.releases id →
            s.current_time < (releaseJobs ω rest (releasedState ω s i t)).releases id := by
          intro id hid
          apply c2
          simp only [releasedState_releases]
          by_cases h : id = t.task_id
          · rw [if_pos h]
            omega
          · rw [if_neg h]
            exact hid
        refine ⟨c1, hmono, ?_, c4⟩
        intro i0 hi0 u hu
        rcases List.mem_cons.mp hi0 with h0 | h0
        · subst h0
          have hids := releaseJobs_ids ω rest (releasedState ω s i0 t) i0
          obtain ⟨hlen, -⟩ := List.getElem?_eq_some.mp (List.get?_eq_getElem? .. ▸ hget)
          have hs1get : (releasedState ω s i0 t).tasks.get? i0
              = some (t.release_new_job s.current_time (ω s.rng)) := by
            rw [releasedState_tasks, List.get?_eq_getElem?]
            exact List.getElem?_set_eq_of_lt _ hlen
          rw [hu, hs1get] at hids
          simp at hids
          have hids2 : u.task_id = t.task_id := hids
          apply c2
          simp only [releasedState_releases]
          rw [if_pos hids2]
          omega
        · exact c3 i0 h0 u hu
      · rw [if_neg hrel]
        obtain ⟨c1, c2, c3, c4⟩ := ih s hA hP
        refine ⟨c1, c2, ?_, c4⟩
        intro i0 hi0 u hu
        rcases List.mem_cons.mp hi0 with h0 | h0
        · subst h0
          have hids := releaseJobs_ids ω rest s i0
          rw [hu, hget] at hids
          simp at hids
          have hstrict : s.current_time < s.releases t.task_id :=
            lt_of_le_of_ne (hA t htmem) hrel
          rw [hids]
          exact c2 t.task_id hstrict
        · exact c3 i0 h0 u hu

/-- After the full release pass, every task's next release time is
strictly in the future. -/
theorem releaseJobs_all_strict (ω : Oracle) (s : SchedState)
    (hA : ∀ t ∈ s.tasks, s.current_time ≤ s.releases t.task_id)
    (hP : ∀ t ∈ s.tasks, 1 ≤ t.period) :
    ∀ t ∈ (releaseJobs ω (List.range s.tasks.length) s).tasks,
      s.current_time
        < (releaseJobs ω (List.range s.tasks.length) s).releases t.task_id := by
  intro t ht
  obtain ⟨-, -, c3, -⟩ := releaseJobs_releases ω (List.range s.tasks.length) s hA hP
  obtain ⟨n, hn⟩ := List.mem_iff_get?.mp ht
  have hlen : n < (releaseJobs ω (List.range s.tasks.length) s).tasks.length := by
    obtain ⟨hl, -⟩ := List.getElem?_eq_some.mp (List.get?_eq_getElem? .. ▸ hn)
    exact hl
  obtain ⟨b1, b2, b3, b4, -⟩ := releaseJobs_basic ω (List.range s.tasks.length) s
  have hnr : n ∈ List.range s.tasks.length := by
    rw [List.mem_range]
    omega
  exact c3 n hnr t hn

/-- If some index in the list points at a task whose release time is
now, the release pass leaves the active list non-empty. -/
theorem releaseJobs_active_of_match (ω : Oracle) :
    ∀ (l : List Nat) (s : SchedState),
      (∃ i ∈ l, ∃ t : Task, s.tasks.get? i = some t ∧
        s.releases t.task_id = s.current_time) →
      (releaseJobs ω l s).active_jobs ≠ [] := by
  intro l
  induction l with
  | nil =>
    intro s h
    simp at h
  | cons i rest ih =>
    intro s h
    unfold releaseJobs
    cases hget : s.tasks.get? i with
    | none =>
      apply ih s
      obtain ⟨i0, hi0, t, ht, hrel⟩ := h
      rcases List.mem_cons.mp hi0 with h0 | h0
      · subst h0
        rw [hget] at ht
        exact absurd ht (by simp)
      · exact ⟨i0, h0, t, ht, hrel⟩
    | some t =>
      dsimp only
      by_cases hrel : s.current_time = s.releases t.task_id
      · rw [if_pos hrel]
        obtain ⟨-, -, -, -, ext, hact⟩ :=
          releaseJobs_basic ω rest (releasedState ω s i t)
        rw [hact, releasedState_active]
        simp
      · rw [if_neg hrel]
        apply ih s
        obtain ⟨i0, hi0, u, hu, hurel⟩ := h
        rcases List.mem_cons.mp hi0 with h0 | h0
        · subst h0
          rw [hget] at hu
          rw [Option.some.injEq] at hu
          subst hu
          exact absurd hurel.symm hrel
        · exact ⟨i0, h0, u, hu, hurel⟩

/-- Every task of the post-dispatch state shares its static fields
(id, period, bcet, wcet) and release-map-relevant identity with a task
of the pre-dispatch state. -/
theorem dispatchStep_tasks_mem (s : SchedState) :
    ∀ u ∈ (dispatchStep s).tasks, ∃ v ∈ s.tasks,
      u.task_id = v.task_id ∧ u.period = v.period ∧
      u.bcet = v.bcet ∧ u.wcet = v.wcet := by
  cases hs : sortByPriority s.tasks s.active_jobs with
  | nil =>
    rw [dispatchStep_eq_idle hs]
    intro u hu
    exact ⟨u, hu, rfl, rfl, rfl, rfl⟩
  | cons i rest =>
    have hfrom : ∀ u ∈ s.tasks, ∃ v ∈ s.tasks,
        u.task_id = v.task_id ∧ u.period = v.period ∧
        u.bcet = v.bcet ∧ u.wcet = v.wcet :=
      fun u hu => ⟨u, hu, rfl, rfl, rfl, rfl⟩
    by_cases hi : i < s.tasks.length
    · have hmem := taskAt_mem hi
      cases hfin : ((taskAt s.tasks i).execute 1).2 with
      | true =>
        rw [dispatchStep_eq_fin hs hfin]
        intro u hu
        rcases List.mem_or_eq_of_mem_set hu with hu1 | hu1
        · rcases List.mem_or_eq_of_mem_set hu1 with hu2 | hu2
          · exact hfrom u hu2
          · subst hu2
            exact ⟨taskAt s.tasks i, hmem, rfl, rfl, rfl, rfl⟩
        · subst hu1
          exact ⟨taskAt s.tasks i, hmem, rfl, rfl, rfl, rfl⟩
      | false =>
        rw [dispatchStep_eq_nofin hs hfin]
        intro u hu
        rcases List.mem_or_eq_of_mem_set hu with hu1 | hu1
        · exact hfrom u hu1
        · subst hu1
          exact ⟨taskAt s.tasks i, hmem, rfl, rfl, rfl, rfl⟩
    · cases hfin : ((taskAt s.tasks i).execute 1).2 with
      | true =>
        rw [dispatchStep_eq_fin hs hfin]
        intro u hu
        rw [set_out_of_range (by rw [List.length_set]; exact hi),
            set_out_of_range hi] at hu
        exact hfrom u hu
      | false =>
        rw [dispatchStep_eq_nofin hs hfin]
        intro u hu
        rw [set_out_of_range hi] at hu
        exact hfrom u hu

/-! ### One no-idle-preserving scheduler step -/

/-- Under positive periods, a non-empty task set, release entries at or
above the clock, and the alternative "active job exists or a release is
due now", one scheduler step preserves all four conditions and appends
no idle entry to the log. -/
theorem schedStep_no_idle_inv (ω : Oracle) (s : SchedState)
    (hne : s.tasks ≠ [])
    (hper : ∀ t ∈ s.tasks, 1 ≤ t.period)
    (hA : ∀ t ∈ s.tasks, s.current_time ≤ s.releases t.task_id)
    (hB : s.active_jobs ≠ [] ∨
      ∃ t ∈ s.tasks, s.releases t.task_id = s.current_time) :
    ((schedStep ω s).tasks ≠ [] ∧
     (∀ t ∈ (schedStep ω s).tasks, 1 ≤ t.period) ∧
     (∀ t ∈ (schedStep ω s).tasks,
        (schedStep ω s).current_time ≤ (schedStep ω s).releases t.task_id) ∧
     ((schedStep ω s).active_jobs ≠ [] ∨
      ∃ t ∈ (schedStep ω s).tasks,
        (schedStep ω s).releases t.task_id = (schedStep ω s).current_time)) ∧
    (∀ e ∈ (schedStep ω s).log, e ∈ s.log ∨ e.2 ≠ LogEntry.idle) := by
  obtain ⟨rb1, rb2, rb3, rb4, ext, rb5⟩ :=
    releaseJobs_basic ω (List.range s.tasks.length) s
  have hstrict1 := releaseJobs_all_strict ω s hA hper
  obtain ⟨-, -, -, hper1⟩ :=
    releaseJobs_releases ω (List.range s.tasks.length) s hA hper
  have hact1 : (releaseJobs ω (List.range s.tasks.length) s).active_jobs ≠ [] := by
    rcases hB with h | ⟨t, ht, htrel⟩
    · rw [rb5]
      intro hcon
      exact h (List.append_eq_nil.mp hcon).1
    · apply releaseJobs_active_of_match
      obtain ⟨n, hn⟩ := List.mem_iff_get?.mp ht
      obtain ⟨hlen, -⟩ := List.getElem?_eq_some.mp (List.get?_eq_getElem? .. ▸ hn)
      exact ⟨n, List.mem_range.mpr hlen, t, hn, htrel⟩
  obtain ⟨db1, db2, db3, db4, e, hdlog, hde⟩ :=
    dispatchStep_basic (releaseJobs ω (List.range s.tasks.length) s)
  have hdmem := dispatchStep_tasks_mem (releaseJobs ω (List.range s.tasks.length) s)
  have heni : e ≠ LogEntry.idle := fun hcon => hact1 (hde.mp hcon)
  have hstasks : (schedStep ω s).tasks
      = (dispatchStep (releaseJobs ω (List.range s.tasks.length) s)).tasks := rfl
  have hsrel : (schedStep ω s).releases
      = (dispatchStep (releaseJobs ω (List.range s.tasks.length) s)).releases := rfl
  have hsact : (schedStep ω s).active_jobs
      = (dispatchStep (releaseJobs ω (List.range s.tasks.length) s)).active_jobs := rfl
  have hslog : (schedStep ω s).log
      = (dispatchStep (releaseJobs ω (List.range s.tasks.length) s)).log := rfl
  have hscur := schedStep_current ω s
  -- strict release bound and positive periods carry through dispatch
  have hstrict2 : ∀ u ∈ (schedStep ω s).tasks,
      s.current_time < (schedStep ω s).releases u.task_id := by
    intro u hu
    rw [hstasks] at hu
    obtain ⟨v, hv, hid, -, -, -⟩ := hdmem u hu
    rw [hsrel, db2, hid]
    exact hstrict1 v hv
  have hper2 : ∀ u ∈ (schedStep ω s).tasks, 1 ≤ u.period := by
    intro u hu
    rw [hstasks] at hu
    obtain ⟨v, hv, -, hp, -, -⟩ := hdmem u hu
    rw [hp]
    exact hper1 v hv
  have hlen2 : (schedStep ω s).tasks.length = s.tasks.length := by
    rw [hstasks, db4, rb4]
  have hne2 : (schedStep ω s).tasks ≠ [] := by
    intro hcon
    apply hne
    apply List.length_eq_zero.mp
    rw [← hlen2, hcon]
    rfl
  -- the log gains exactly one non-idle entry
  have hlog2 : ∀ ev ∈ (schedStep ω s).log, ev ∈ s.log ∨ ev.2 ≠ LogEntry.idle := by
    intro ev hev
    rw [hslog, hdlog, rb2, rb1] at hev
    rcases List.mem_append.mp hev with h1 | h1
    · exact Or.inl h1
    · right
      rw [List.mem_singleton.mp h1]
      exact heni
  -- the advance amount, expressed over the post-step state's own fields
  have hscur2 : (schedStep ω s).current_time
      = s.current_time + AdvanceTime s.current_time (schedStep ω s).tasks
          (releaseValues (schedStep ω s)) (schedStep ω s).active_jobs := rfl
  have hmain : (∀ u ∈ (schedStep ω s).tasks,
      (schedStep ω s).current_time ≤ (schedStep ω s).releases u.task_id) ∧
      ((schedStep ω s).active_jobs ≠ [] ∨
       ∃ u ∈ (schedStep ω s).tasks,
         (schedStep ω s).releases u.task_id = (schedStep ω s).current_time) := by
    by_cases hact2 : (schedStep ω s).active_jobs ≠ []
    · have hadv : AdvanceTime s.current_time (schedStep ω s).tasks
          (releaseValues (schedStep ω s)) (schedStep ω s).active_jobs = 1 :=
        AdvanceTime_of_active hact2
      refine ⟨?_, Or.inl hact2⟩
      intro u hu
      have h1 := hstrict2 u hu
      rw [hscur2, hadv]
      omega
    · rw [not_not] at hact2
      obtain ⟨t0, ht0⟩ := List.exists_mem_of_ne_nil _ hne2
      have hval0 : (schedStep ω s).releases t0.task_id ∈ releaseValues (schedStep ω s) :=
        List.mem_map_of_mem _ (List.mem_dedup.mpr (List.mem_map_of_mem _ ht0))
      have hmemF : (schedStep ω s).releases t0.task_id
          ∈ (releaseValues (schedStep ω s)).filter
              (fun v => decide (s.current_time < v)) :=
        List.mem_filter.mpr ⟨hval0, by simpa using hstrict2 t0 ht0⟩
      obtain ⟨m, hmin⟩ := listMin_of_ne_nil (List.ne_nil_of_mem hmemF)
      have hadv : AdvanceTime s.current_time (schedStep ω s).tasks
          (releaseValues (schedStep ω s)) (schedStep ω s).active_jobs
          = m - s.current_time := by
        rw [hact2]
        exact AdvanceTime_idle_some hmin
      have hmmem := listMin_mem hmin
      obtain ⟨hmvals, hmgtd⟩ := List.mem_filter.mp hmmem
      have hmgt : s.current_time < m := by simpa using hmgtd
      constructor
      · intro u hu
        have huF : (schedStep ω s).releases u.task_id
            ∈ (releaseValues (schedStep ω s)).filter
                (fun v => decide (s.current_time < v)) :=
          List.mem_filter.mpr
            ⟨List.mem_map_of_mem _ (List.mem_dedup.mpr (List.mem_map_of_mem _ hu)),
             by simpa using hstrict2 u hu⟩
        have hle := listMin_le hmin _ huF
        rw [hscur2, hadv]
        omega
      · right
        obtain ⟨id0, hid0, hideq⟩ := List.mem_map.mp hmvals
        obtain ⟨u, hu, hueq⟩ := List.mem_map.mp (List.mem_dedup.mp hid0)
        refine ⟨u, hu, ?_⟩
        rw [hscur2, hadv, hueq, hideq]
        omega
  exact ⟨⟨hne2, hper2, hmain.1, hmain.2⟩, hlog2⟩

/-! ### Response-time accounting machinery -/

theorem taskAt_of_get? {ts : List Task} {i : Nat} {t : Task}
    (h : ts.get? i = some t) : taskAt ts i = t := by
  rw [taskAt, List.getD_eq_getElem?_getD, ← List.get?_eq_getElem?, h]
  rfl

/-- The release step does not change any task's wcrt. -/
theorem releaseJobs_wcrtAt (ω : Oracle) :
    ∀ (l : List Nat) (s : SchedState) (j : Nat),
      wcrtAt (releaseJobs ω l s) j = wcrtAt s j := by
  intro l
  induction l with
  | nil => intro s j; rfl
  | cons i rest ih =>
    intro s j
    unfold releaseJobs
    cases hget : s.tasks.get? i with
    | none => exact ih s j
    | some t =>
      dsimp only
      by_cases hrel : s.current_time = s.releases t.task_id
      · rw [if_pos hrel, ih]
        show (taskAt (releasedState ω s i t).tasks j).wcrt = wcrtAt s j
        rw [releasedState_tasks]
        by_cases hij : i = j
        · subst hij
          obtain ⟨hlen, -⟩ := List.getElem?_eq_some.mp (List.get?_eq_getElem? .. ▸ hget)
          rw [taskAt_set_self hlen, wcrtAt, taskAt_of_get? hget]
          rfl
        · rw [taskAt_set_ne hij]
          rfl
      · rw [if_neg hrel]
        exact ih s j

/-- The dispatch step never decreases any task's wcrt. -/
theorem dispatchStep_wcrtAt (s : SchedState) (j : Nat) :
    wcrtAt s j ≤ wcrtAt (dispatchStep s) j := by
  cases hs : sortByPriority s.tasks s.active_jobs with
  | nil =>
    rw [dispatchStep_eq_idle hs]
    exact le_refl _
  | cons i rest =>
    by_cases hi : i < s.tasks.length
    · cases hfin : ((taskAt s.tasks i).execute 1).2 with
      | true =>
        rw [dispatchStep_eq_fin hs hfin]
        by_cases hij : i = j
        · subst hij
          show wcrtAt s i ≤ (taskAt ((s.tasks.set i _).set i _) i).wcrt
          rw [taskAt_set_self (by rw [List.length_set]; exact hi)]
          show wcrtAt s i ≤ max ((taskAt s.tasks i).execute 1).1.wcrt _
          have : (((taskAt s.tasks i).execute 1).1).wcrt = wcrtAt s i := rfl
          rw [this]
          exact le_max_left _ _
        · show wcrtAt s j ≤ (taskAt ((s.tasks.set i _).set i _) j).wcrt
          rw [taskAt_set_ne hij, taskAt_set_ne hij]
          exact le_refl _
      | false =>
        rw [dispatchStep_eq_nofin hs hfin]
        by_cases hij : i = j
        · subst hij
          show wcrtAt s i ≤ (taskAt (s.tasks.set i _) i).wcrt
          rw [taskAt_set_self hi]
          exact le_refl _
        · show wcrtAt s j ≤ (taskAt (s.tasks.set i _) j).wcrt
          rw [taskAt_set_ne hij]
          exact le_refl _
    · cases hfin : ((taskAt s.tasks i).execute 1).2 with
      | true =>
        rw [dispatchStep_eq_fin hs hfin]
        show wcrtAt s j ≤ (taskAt ((s.tasks.set i _).set i _) j).wcrt
        rw [set_out_of_range (by rw [List.length_set]; exact hi), set_out_of_range hi]
        exact le_refl _
      | false =>
        rw [dispatchStep_eq_nofin hs hfin]
        show wcrtAt s j ≤ (taskAt (s.tasks.set i _) j).wcrt
        rw [set_out_of_range hi]
        exact le_refl _

/-- One scheduler step never decreases any task's wcrt. -/
theorem schedStep_wcrt_mono (ω : Oracle) (s : SchedState) (j : Nat) :
    wcrtAt s j ≤ wcrtAt (schedStep ω s) j := by
  have h1 := releaseJobs_wcrtAt ω (List.range s.tasks.length) s j
  have h2 := dispatchStep_wcrtAt (releaseJobs ω (List.range s.tasks.length) s) j
  have h3 : wcrtAt (schedStep ω s) j
      = wcrtAt (dispatchStep (releaseJobs ω (List.range s.tasks.length) s)) j := rfl
  omega

/-- Release preserves in-rangeness of the active indices. -/
theorem releaseJobs_active_range (ω : Oracle) :
    ∀ (l : List Nat) (s : SchedState),
      (∀ i ∈ s.active_jobs, i < s.tasks.length) →
      ∀ i ∈ (releaseJobs ω l s).active_jobs, i < (releaseJobs ω l s).tasks.length := by
  intro l
  induction l with
  | nil => intro s h; exact h
  | cons i rest ih =>
    intro s h
    unfold releaseJobs
    cases hget : s.tasks.get? i with
    | none => exact ih s h
    | some t =>
      dsimp only
      by_cases hrel : s.current_time = s.releases t.task_id
      · rw [if_pos hrel]
        apply ih
        intro i0 hi0
        rw [releasedState_active] at hi0
        rw [releasedState_tasks, List.length_set]
        rcases List.mem_append.mp hi0 with h0 | h0
        · exact h i0 h0
        · rw [List.mem_singleton.mp h0]
          obtain ⟨hlen, -⟩ := List.getElem?_eq_some.mp (List.get?_eq_getElem? .. ▸ hget)
          exact hlen
      · rw [if_neg hrel]
        exact ih s h

/-- Dispatch preserves in-rangeness of the active indices. -/
theorem dispatchStep_active_range (s : SchedState)
    (h : ∀ i ∈ s.active_jobs, i < s.tasks.length) :
    ∀ i ∈ (dispatchStep s).active_jobs, i < (dispatchStep s).tasks.length := by
  have hsub : ∀ i0, i0 ∈ sortByPriority s.tasks s.active_jobs → i0 < s.tasks.length :=
    fun i0 hi0 => h i0 ((sortByPriority_mem s.tasks s.active_jobs i0).mp hi0)
  cases hs : sortByPriority s.tasks s.active_jobs with
  | nil =>
    rw [dispatchStep_eq_idle hs]
    intro i0 hi0
    simp at hi0
  | cons i rest =>
    cases hfin : ((taskAt s.tasks i).execute 1).2 with
    | true =>
      rw [dispatchStep_eq_fin hs hfin]
      intro i0 hi0
      show i0 < ((s.tasks.set i _).set i _).length
      rw [List.length_set, List.length_set]
      exact hsub i0 (by rw [hs]; exact List.mem_cons.mpr (Or.inr hi0))
    | false =>
      rw [dispatchStep_eq_nofin hs hfin]
      intro i0 hi0
      show i0 < (s.tasks.set i _).length
      rw [List.length_set]
      exact hsub i0 (by rw [hs]; exact hi0)

/-- A task predicate that holds of every freshly released job is
preserved over the whole release pass. -/
theorem releaseJobs_tasks_pred (ω : Oracle) (c : Int) (P : Task → Prop)
    (hnew : ∀ (t : Task) (d : ℚ), P (t.release_new_job c d)) :
    ∀ (l : List Nat) (s : SchedState), s.current_time = c →
      (∀ t ∈ s.tasks, P t) → ∀ t ∈ (releaseJobs ω l s).tasks, P t := by
  intro l
  induction l with
  | nil => intro s _ h; exact h
  | cons i rest ih =>
    intro s hc h
    unfold releaseJobs
    cases hget : s.tasks.get? i with
    | none => exact ih s hc h
    | some t =>
      dsimp only
      by_cases hrel : s.current_time = s.releases t.task_id
      · rw [if_pos hrel]
        apply ih _ (by rw [releasedState_current]; exact hc)
        intro u hu
        rw [releasedState_tasks] at hu
        rcases List.mem_or_eq_of_mem_set hu with hu1 | hu1
        · exact h u hu1
        · subst hu1
          rw [hc]
          exact hnew t (ω s.rng)
      · rw [if_neg hrel]
        exact ih s hc h

theorem foldl_max_append_single (a : Int) (l : List Int) (x : Int) :
    List.foldl max a (l ++ [x]) = max (List.foldl max a l) x := by
  rw [List.foldl_append]
  rfl

theorem responsesOf_append_hit (j : Nat) (l : List (Nat × Int × Int))
    (c r : Int) : responsesOf j (l ++ [(j, c, r)]) = responsesOf j l ++ [r] := by
  rw [responsesOf, responsesOf, List.filterMap_append]
  simp

theorem responsesOf_append_miss {i j : Nat} (hij : i ≠ j)
    (l : List (Nat × Int × Int)) (c r : Int) :
    responsesOf j (l ++ [(i, c, r)]) = responsesOf j l := by
  rw [responsesOf, responsesOf, List.filterMap_append]
  simp [hij]

/-- The dispatch step preserves the response-time bookkeeping. -/
theorem dispatchStep_RespInv (s : SchedState)
    (hrange : ∀ i ∈ s.active_jobs, i < s.tasks.length)
    (hRb : ∀ t ∈ s.tasks, t.release_time ≤ s.current_time ∧
      ∀ r : Int, t.response_time = some r →
        1 ≤ r ∧ ∃ c, t.completion_time = some c ∧ r = c - t.release_time)
    (hRg : ∀ p ∈ s.completions, 1 ≤ p.2.2)
    (hQd : ∀ j : Nat, wcrtAt s j = (responsesOf j s.completions).foldl max 0) :
    (∀ t ∈ (dispatchStep s).tasks, t.release_time ≤ s.current_time ∧
      ∀ r : Int, t.response_time = some r →
        1 ≤ r ∧ ∃ c, t.completion_time = some c ∧ r = c - t.release_time) ∧
    (∀ p ∈ (dispatchStep s).completions, 1 ≤ p.2.2) ∧
    (∀ j : Nat, wcrtAt (dispatchStep s) j
      = (responsesOf j (dispatchStep s).completions).foldl max 0) := by
  cases hs : sortByPriority s.tasks s.active_jobs with
  | nil =>
    rw [dispatchStep_eq_idle hs]
    exact ⟨hRb, hRg, hQd⟩
  | cons i rest =>
    have hi : i < s.tasks.length :=
      hrange i ((sortByPriority_mem s.tasks s.active_jobs i).mp
        (by rw [hs]; exact List.mem_cons_self i rest))
    have htmem : taskAt s.tasks i ∈ s.tasks := taskAt_mem hi
    obtain ⟨hbt1, hbt2⟩ := hRb _ htmem
    cases hfin : ((taskAt s.tasks i).execute 1).2 with
    | false =>
      rw [dispatchStep_eq_nofin hs hfin]
      refine ⟨?_, hRg, ?_⟩
      · intro u hu
        rcases List.mem_or_eq_of_mem_set hu with hu1 | hu1
        · exact hRb u hu1
        · subst hu1
          exact ⟨hbt1, hbt2⟩
      · intro j
        by_cases hij : i = j
        · subst hij
          show (taskAt (s.tasks.set i _) i).wcrt = _
          rw [taskAt_set_self hi]
          exact hQd i
        · show (taskAt (s.tasks.set i _) j).wcrt = _
          rw [taskAt_set_ne hij]
          exact hQd j
    | true =>
      rw [dispatchStep_eq_fin hs hfin]
      have hrel1 : ((taskAt s.tasks i).execute 1).1.release_time
          = (taskAt s.tasks i).release_time := rfl
      refine ⟨?_, ?_, ?_⟩
      · intro u hu
        rcases List.mem_or_eq_of_mem_set hu with hu1 | hu1
        · rcases List.mem_or_eq_of_mem_set hu1 with hu2 | hu2
          · exact hRb u hu2
          · subst hu2
            exact ⟨hbt1, hbt2⟩
        · subst hu1
          constructor
          · show (taskAt s.tasks i).release_time ≤ s.current_time
            exact hbt1
          · intro r hr
            simp [Task.calculate_response_time, Task.execute] at hr ⊢
            omega
      · intro p hp
        rcases List.mem_append.mp hp with h1 | h1
        · exact hRg p h1
        · rw [List.mem_singleton.mp h1]
          show 1 ≤ s.current_time + 1 - ((taskAt s.tasks i).execute 1).1.release_time
          rw [hrel1]
          omega
      · intro j
        by_cases hij : i = j
        · subst hij
          show (taskAt ((s.tasks.set i ((taskAt s.tasks i).execute 1).1).set i
              (((taskAt s.tasks i).execute 1).1.calculate_response_time
                (s.current_time + 1))) i).wcrt
            = (responsesOf i (s.completions ++ [(i, s.current_time + 1,
                s.current_time + 1
                  - ((taskAt s.tasks i).execute 1).1.release_time)])).foldl max 0
          rw [taskAt_set_self (by rw [List.length_set]; exact hi), hrel1,
              responsesOf_append_hit, foldl_max_append_single, ← hQd i]
          rfl
        · show (taskAt ((s.tasks.set i ((taskAt s.tasks i).execute 1).1).set i
              (((taskAt s.tasks i).execute 1).1.calculate_response_time
                (s.current_time + 1))) j).wcrt
            = (responsesOf j (s.completions ++ [(i, s.current_time + 1,
                s.current_time + 1
                  - ((taskAt s.tasks i).execute 1).1.release_time)])).foldl max 0
          rw [taskAt_set_ne hij, taskAt_set_ne hij, responsesOf_append_miss hij]
          exact hQd j

/-- One scheduler step preserves the response-time bookkeeping. -/
theorem schedStep_RespInv (ω : Oracle) (s : SchedState) (h : RespInv s) :
    RespInv (schedStep ω s) := by
  obtain ⟨hrange, hRb, hRg, hQd⟩ := h
  obtain ⟨rb1, rb2, rb3, rb4, ext, rb5⟩ :=
    releaseJobs_basic ω (List.range s.tasks.length) s
  have hrange1 := releaseJobs_active_range ω (List.range s.tasks.length) s hrange
  have hRb1 : ∀ t ∈ (releaseJobs ω (List.range s.tasks.length) s).tasks,
      t.release_time ≤ s.current_time ∧
      ∀ r : Int, t.response_time = some r →
        1 ≤ r ∧ ∃ c, t.completion_time = some c ∧ r = c - t.release_time := by
    apply releaseJobs_tasks_pred ω s.current_time _ ?_ _ s rfl hRb
    intro t d
    constructor
    · exact le_refl _
    · intro r hr
      simp [Task.release_new_job] at hr
  have hRb1c : ∀ t ∈ (releaseJobs ω (List.range s.tasks.length) s).tasks,
      t.release_time ≤ (releaseJobs ω (List.range s.tasks.length) s).current_time ∧
      ∀ r : Int, t.response_time = some r →
        1 ≤ r ∧ ∃ c, t.completion_time = some c ∧ r = c - t.release_time := by
    rw [rb1]
    exact hRb1
  have hRg1 : ∀ p ∈ (releaseJobs ω (List.range s.tasks.length) s).completions,
      1 ≤ p.2.2 := by
    rw [rb3]
    exact hRg
  have hQd1 : ∀ j : Nat, wcrtAt (releaseJobs ω (List.range s.tasks.length) s) j
      = (responsesOf j (releaseJobs ω (List.range s.tasks.length) s).completions).foldl
          max 0 := by
    intro j
    rw [releaseJobs_wcrtAt, rb3]
    exact hQd j
  obtain ⟨hRb2, hRg2, hQd2⟩ :=
    dispatchStep_RespInv _ hrange1 hRb1c hRg1 hQd1
  have hrange2 := dispatchStep_active_range _ hrange1
  have hcur := schedStep_current_le ω s
  refine ⟨hrange2, ?_, hRg2, hQd2⟩
  intro t ht
  obtain ⟨h1, h2⟩ := hRb2 t ht
  refine ⟨?_, h2⟩
  have h1s : t.release_time ≤ s.current_time := by
    rw [rb1] at h1
    exact h1
  omega

/-- The initial state satisfies the response-time bookkeeping, given
freshly constructed tasks. -/
theorem initState_RespInv (tasks : List Task)
    (hrel0 : ∀ t ∈ tasks, t.release_time ≤ 0)
    (hresp0 : ∀ t ∈ tasks, t.response_time = none)
    (hwcrt0 : ∀ t ∈ tasks, t.wcrt = 0) :
    RespInv (initState tasks) := by
  refine ⟨?_, ?_, ?_, ?_⟩
  · intro i hi
    simp [initState] at hi
  · intro t ht
    refine ⟨hrel0 t ht, ?_⟩
    intro r hr
    rw [hresp0 t ht] at hr
    cases hr
  · intro p hp
    simp [initState] at hp
  · intro j
    show (taskAt tasks j).wcrt = (responsesOf j []).foldl max 0
    by_cases hj : j < tasks.length
    · rw [hwcrt0 _ (taskAt_mem hj)]
      rfl
    · rw [taskAt, List.getD_eq_getElem?_getD, List.getElem?_eq_none (by omega)]
      rfl

/-! ### The claims -/

/-- C1.  For the task set {A: period 4, bcet = wcet = 1, priority 1;
B: period 6, bcet = wcet = 2, priority 2} and horizon 12 (for any
oracle — both tasks are degenerate, so no draw is consumed): A runs at
ticks 0, 4, 8 and each of its jobs completes (at times 1, 5, 9) with
response time 1, so A's wcrt is 1; B's first job runs ticks 1–2 and
completes at tick 3 with response time 3, its second runs ticks 6–7
and completes at tick 8 with response time 2, so B's wcrt is 3.  The
ghost `completions` stream lists (task index, completion time,
response time) in order; index 0 is A, index 1 is B. -/
theorem rm_two_task_scenario (ω : Oracle) :
    (rate_monotonic_scheduling ω [taskA, taskB] 12).log =
      [(0, LogEntry.run "A"), (1, LogEntry.run "B"), (2, LogEntry.run "B"),
       (4, LogEntry.run "A"), (6, LogEntry.run "B"), (7, LogEntry.run "B"),
       (8, LogEntry.run "A")] ∧
    (rate_monotonic_scheduling ω [taskA, taskB] 12).completions =
      [(0, 1, 1), (1, 3, 3), (0, 5, 1), (1, 8, 2), (0, 9, 1)] ∧
    wcrtMap (rate_monotonic_scheduling ω [taskA, taskB] 12) = [("A", 1), ("B", 3)] := by
  rw [rate_monotonic_scheduling_oracle_degen ω zeroOracle [taskA, taskB] 12 (by decide),
      rate_monotonic_scheduling,
      schedLoop_eq_schedRun zeroOracle 12 12 (initState [taskA, taskB]) (by decide)]
  exact ⟨by decide, by decide, by decide⟩

/-- C2.  At any scheduler iteration with a non-empty active list, the
dispatched job (the head of the priority sort, logged as a run entry at
the current time) has the numerically smallest priority among all
active jobs, and the selection is a function of the task list and the
active list alone, hence deterministic for a given task set. -/
theorem dispatch_min_priority (s : SchedState) (i : Nat) (rest : List Nat)
    (hsort : sortByPriority s.tasks s.active_jobs = i :: rest) :
    (∀ j ∈ s.active_jobs, priAt s.tasks i ≤ priAt s.tasks j) ∧
    (dispatchStep s).log
      = s.log ++ [(s.current_time, LogEntry.run (taskAt s.tasks i).task_id)] ∧
    (∀ s2 : SchedState, s2.tasks = s.tasks → s2.active_jobs = s.active_jobs →
      sortByPriority s2.tasks s2.active_jobs = i :: rest) := by
  refine ⟨sortByPriority_head_min s.tasks s.active_jobs i rest hsort, ?_, ?_⟩
  · cases hfin : ((taskAt s.tasks i).execute 1).2 with
    | true => rw [dispatchStep_eq_fin hsort hfin]
    | false => rw [dispatchStep_eq_nofin hsort hfin]
  · intro s2 ht ha
    rw [ht, ha]
    exact hsort

/-- Witness for C2 at a concrete state: tasks A (priority 1) and B
(priority 2) both active, appended in order [B, A]; the sort selects A
(index 0), whose priority 1 is minimal. -/
theorem dispatch_min_priority_witness :
    (sortByPriority [taskA, taskB] [1, 0] = 0 :: [1]) ∧
    ((∀ j ∈ ([1, 0] : List Nat), priAt [taskA, taskB] 0 ≤ priAt [taskA, taskB] j) ∧
     (dispatchStep { current_time := 0, tasks := [taskA, taskB], active_jobs := [1, 0],
                     releases := fun _ => 0, log := [], completions := [], rng := 0 }).log
       = [] ++ [(0, LogEntry.run (taskAt [taskA, taskB] 0).task_id)] ∧
     (∀ s2 : SchedState, s2.tasks = [taskA, taskB] → s2.active_jobs = [1, 0] →
       sortByPriority s2.tasks s2.active_jobs = 0 :: [1])) :=
  ⟨by decide,
   dispatch_min_priority
     { current_time := 0, tasks := [taskA, taskB], active_jobs := [1, 0],
       releases := fun _ => 0, log := [], completions := [], rng := 0 }
     0 [1] (by decide)⟩

/-- C3 (counterexample to the claim as stated).  In the single-task
idle scenario (period 10, bcet = wcet = 1, horizon 10), the loop body
runs exactly once: at the iteration at tick 0 the job runs and
completes, and the idle-skip advance moves `current_time` from 0
directly to 10.  `current_time` is never 1, so the claimed jump "from
1 directly to 10" does not happen: the log (which gets exactly one
entry per loop iteration, at the tick the iteration starts) has its
only entry at tick 0 and none at tick 1. -/
theorem idle_skip_not_from_tick_one :
    (schedStep zeroOracle (initState [taskT])).current_time = 10 ∧
    (rate_monotonic_scheduling zeroOracle [taskT] 10).log = [(0, LogEntry.run "T")] ∧
    (∀ e ∈ (rate_monotonic_scheduling zeroOracle [taskT] 10).log, e.1 ≠ 1) := by
  have hb : rate_monotonic_scheduling zeroOracle [taskT] 10
      = schedRun zeroOracle 10 10 (initState [taskT]) := by
    rw [rate_monotonic_scheduling]
    exact schedLoop_eq_schedRun zeroOracle 10 10 _ (by decide)
  refine ⟨by decide, ?_, ?_⟩
  · rw [hb]; decide
  · rw [hb]; decide

/-- C3 (amended).  Single task with period 10, bcet = wcet = 1, horizon
10, any oracle: the job runs at tick 0 and completes at time 1 with
response time 1, so the task's wcrt is 1; the idle-skip advance jumps
`current_time` from 0 (the only iterated tick) directly to 10, so
ticks 1–9 are never iterated and the log — one entry per iteration —
contains exactly the single run entry at tick 0 and in particular no
entry, running or idle, at any tick in 1–9. -/
theorem idle_skip_single_task (ω : Oracle) :
    (rate_monotonic_scheduling ω [taskT] 10).log = [(0, LogEntry.run "T")] ∧
    wcrtMap (rate_monotonic_scheduling ω [taskT] 10) = [("T", 1)] ∧
    (rate_monotonic_scheduling ω [taskT] 10).completions = [(0, 1, 1)] ∧
    (rate_monotonic_scheduling ω [taskT] 10).current_time = 10 ∧
    (schedStep ω (initState [taskT])).current_time = 10 := by
  rw [rate_monotonic_scheduling_oracle_degen ω zeroOracle [taskT] 10 (by decide),
      rate_monotonic_scheduling,
      schedLoop_eq_schedRun zeroOracle 10 10 (initState [taskT]) (by decide),
      (schedStep_oracle_degen ω zeroOracle (initState [taskT])
        (by intro t ht; rcases List.mem_singleton.mp ht with rfl; decide)).1]
  exact ⟨by decide, by decide, by decide, by decide, by decide⟩

/-- C4 (counterexample to the claim as stated).  `badRows` has a
duplicate task id, a duplicate priority, and periods 0 (≤ 0), yet the
task-set construction performs no validation: it succeeds and returns
one task per row, and the simulation over the resulting tasks proceeds
to the horizon and produces a schedule log.  No configuration check
(and no `ConfigurationError`) exists anywhere in the code. -/
theorem config_validation_absent :
    badRows.length = 2 ∧
    (∀ r ∈ badRows, r.period ≤ 0) ∧
    badRows.map CsvRow.task_id = ["T", "T"] ∧
    badRows.map CsvRow.priority = [1, 1] ∧
    badTasks.length = 2 ∧
    (rate_monotonic_scheduling zeroOracle badTasks 1).log = [(0, LogEntry.run "T")] ∧
    1 ≤ (rate_monotonic_scheduling zeroOracle badTasks 1).current_time := by
  have hb : rate_monotonic_scheduling zeroOracle badTasks 1
      = schedRun zeroOracle 1 1 (initState badTasks) := by
    rw [rate_monotonic_scheduling]
    exact schedLoop_eq_schedRun zeroOracle 1 1 _ (by decide)
  refine ⟨by decide, by decide, by decide, by decide, by decide, ?_, ?_⟩
  · rw [hb]; decide
  · rw [hb]; decide

/-- C4 (amended).  Task-set construction never raises: for every row
list it returns exactly one task per row (with the given ids), and the
simulation over the loaded tasks always proceeds and reaches the
horizon — validation of `bcet ≤ wcet`, `period > 0`, or duplicate
ids/priorities does not exist in the code. -/
theorem load_tasks_no_validation (ω : Oracle) (rows : List CsvRow)
    (rng : Nat) (sim : Int) :
    (load_tasks_from_csv ω rows rng).length = rows.length ∧
    (load_tasks_from_csv ω rows rng).map Task.task_id = rows.map CsvRow.task_id ∧
    sim ≤ (rate_monotonic_scheduling ω (load_tasks_from_csv ω rows rng) sim).current_time := by
  refine ⟨?_, ?_, schedLoop_final_ge ω sim _⟩
  · induction rows generalizing rng with
    | nil => rfl
    | cons r rest ih => simpa [load_tasks_from_csv] using ih _
  · induction rows generalizing rng with
    | nil => rfl
    | cons r rest ih => simpa [load_tasks_from_csv, Task.init] using ih _

/-- C5 (counterexample to the claim as stated).  At `bcet = wcet = 0`
(allowed by the claim's hypothesis `0 ≤ bcet ≤ wcet`) the sampler
returns `max 1 0 = 1`, which does not lie in the stated interval
`[max(1,bcet), wcet] = [1, 0]`, so the parenthetical "every sampled
job's execution_time lies in [max(1,bcet), wcet]" fails there. -/
theorem execution_time_degenerate_zero :
    0 ≤ (0 : Int) ∧ (0 : Int) ≤ 0 ∧
    generate_execution_time 0 0 0 = 1 ∧
    ¬ (max 1 (0 : Int) ≤ generate_execution_time 0 0 0 ∧
       generate_execution_time 0 0 0 ≤ 0) := by
  refine ⟨le_refl 0, le_refl 0, by decide, by decide⟩

/-- C5 (amended).  For `0 ≤ bcet ≤ wcet`: the degenerate case returns
`max 1 bcet` deterministically; in the non-degenerate case any draw in
`[bcet, wcet]` yields a value in `[max(1,bcet), wcet]`; and whenever
`wcet ≥ 1` (which excludes only the degenerate all-zero corner) every
sampled value lies in `[max(1,bcet), wcet]`. -/
theorem execution_time_bounds (bcet wcet : Int) (draw : ℚ)
    (h0 : 0 ≤ bcet) (hbw : bcet ≤ wcet) :
    (bcet = wcet → generate_execution_time bcet wcet draw = max 1 bcet) ∧
    (bcet ≠ wcet → (bcet : ℚ) ≤ draw → draw ≤ (wcet : ℚ) →
      max 1 bcet ≤ generate_execution_time bcet wcet draw ∧
      generate_execution_time bcet wcet draw ≤ wcet) ∧
    (1 ≤ wcet → (bcet ≠ wcet → (bcet : ℚ) ≤ draw ∧ draw ≤ (wcet : ℚ)) →
      max 1 bcet ≤ generate_execution_time bcet wcet draw ∧
      generate_execution_time bcet wcet draw ≤ wcet) := by
  have hkey : ∀ _ : bcet ≠ wcet, (bcet : ℚ) ≤ draw → draw ≤ (wcet : ℚ) →
      max 1 bcet ≤ generate_execution_time bcet wcet draw ∧
      generate_execution_time bcet wcet draw ≤ wcet := by
    intro hne hlo hhi
    have hlt : bcet < wcet := lt_of_le_of_ne hbw hne
    have hw1 : 1 ≤ wcet := by omega
    rw [generate_execution_time, if_neg hne]
    have hround_lo : bcet ≤ round draw := by
      rw [round_eq]
      apply Int.le_floor.mpr
      linarith
    have hround_hi : round draw ≤ wcet := by
      rw [round_eq]
      have hfl : (draw + 1 / 2 : ℚ) < ((wcet + 1 : Int) : ℚ) := by
        push_cast
        linarith
      have := Int.floor_lt.mpr hfl
      omega
    constructor
    · exact max_le_max (le_refl 1) hround_lo
    · exact max_le hw1 hround_hi
  refine ⟨fun h => generate_execution_time_degen h draw, hkey, ?_⟩
  intro hw1 hdraw
  by_cases hne : bcet = wcet
  · rw [generate_execution_time_degen hne draw]
    exact ⟨le_refl _, max_le hw1 (hne ▸ hbw)⟩
  · exact hkey hne (hdraw hne).1 (hdraw hne).2

/-- Witness for C5 (amended) at `bcet = 1`, `wcet = 3`, `draw = 2`. -/
theorem execution_time_bounds_witness :
    (0 ≤ (1 : Int)) ∧ ((1 : Int) ≤ 3) ∧
    (((1 : Int) = 3 → generate_execution_time 1 3 2 = max 1 1) ∧
     ((1 : Int) ≠ 3 → ((1 : Int) : ℚ) ≤ 2 → (2 : ℚ) ≤ ((3 : Int) : ℚ) →
       max 1 1 ≤ generate_execution_time 1 3 2 ∧
       generate_execution_time 1 3 2 ≤ 3) ∧
     (1 ≤ (3 : Int) → ((1 : Int) ≠ 3 → ((1 : Int) : ℚ) ≤ 2 ∧ (2 : ℚ) ≤ ((3 : Int) : ℚ)) →
       max 1 1 ≤ generate_execution_time 1 3 2 ∧
       generate_execution_time 1 3 2 ≤ 3)) :=
  ⟨by norm_num, by norm_num, execution_time_bounds 1 3 2 (by norm_num) (by norm_num)⟩

/-- C7.  Response-time accounting: `calculate_response_time c` sets the
completion time to `c`, the response time to `c` minus the release
time, and folds that response into the task's running maximum wcrt.
In every run (from freshly constructed tasks): every task whose
response time is set has it equal to its completion time minus its
release time and at least 1; every recorded completion has response at
least 1; each task's wcrt never decreases from one loop iterate to the
next; and each task's final wcrt equals the maximum (0 if none) of the
response times of its jobs completed within the horizon. -/
theorem response_time_accounting (ω : Oracle) (tasks : List Task) (sim : Int)
    (hrel0 : ∀ t ∈ tasks, t.release_time ≤ 0)
    (hresp0 : ∀ t ∈ tasks, t.response_time = none)
    (hwcrt0 : ∀ t ∈ tasks, t.wcrt = 0) :
    (∀ (t : Task) (c : Int),
      (t.calculate_response_time c).completion_time = some c ∧
      (t.calculate_response_time c).response_time = some (c - t.release_time) ∧
      (t.calculate_response_time c).wcrt = max t.wcrt (c - t.release_time)) ∧
    (∀ t ∈ (rate_monotonic_scheduling ω tasks sim).tasks, ∀ r : Int,
      t.response_time = some r →
        1 ≤ r ∧ ∃ c, t.completion_time = some c ∧ r = c - t.release_time) ∧
    (∀ p ∈ (rate_monotonic_scheduling ω tasks sim).completions, 1 ≤ p.2.2) ∧
    (∀ n j : Nat,
      wcrtAt ((schedStep ω)^[n] (initState tasks)) j
        ≤ wcrtAt ((schedStep ω)^[n + 1] (initState tasks)) j) ∧
    (∀ j : Nat,
      wcrtAt (rate_monotonic_scheduling ω tasks sim) j
        = (responsesOf j
            (rate_monotonic_scheduling ω tasks sim).completions).foldl max 0) := by
  obtain ⟨-, hb, hg, hd⟩ :=
    schedLoop_invariant ω sim RespInv (schedStep_RespInv ω) (initState tasks)
      (initState_RespInv tasks hrel0 hresp0 hwcrt0)
  refine ⟨fun t c => ⟨rfl, rfl, rfl⟩, fun t ht => (hb t ht).2, hg, ?_, hd⟩
  intro n j
  rw [Function.iterate_succ_apply']
  exact schedStep_wcrt_mono ω _ j

/-- Witness for C7 at the two-task scenario's task set. -/
theorem response_time_accounting_witness :
    ((∀ t ∈ [taskA, taskB], t.release_time ≤ 0) ∧
     (∀ t ∈ [taskA, taskB], t.response_time = none) ∧
     (∀ t ∈ [taskA, taskB], t.wcrt = 0)) ∧
    ((∀ (t : Task) (c : Int),
       (t.calculate_response_time c).completion_time = some c ∧
       (t.calculate_response_time c).response_time = some (c - t.release_time) ∧
       (t.calculate_response_time c).wcrt = max t.wcrt (c - t.release_time)) ∧
     (∀ t ∈ (rate_monotonic_scheduling zeroOracle [taskA, taskB] 12).tasks,
       ∀ r : Int, t.response_time = some r →
         1 ≤ r ∧ ∃ c, t.completion_time = some c ∧ r = c - t.release_time) ∧
     (∀ p ∈ (rate_monotonic_scheduling zeroOracle [taskA, taskB] 12).completions,
       1 ≤ p.2.2) ∧
     (∀ n j : Nat,
       wcrtAt ((schedStep zeroOracle)^[n] (initState [taskA, taskB])) j
         ≤ wcrtAt ((schedStep zeroOracle)^[n + 1] (initState [taskA, taskB])) j) ∧
     (∀ j : Nat,
       wcrtAt (rate_monotonic_scheduling zeroOracle [taskA, taskB] 12) j
         = (responsesOf j
             (rate_monotonic_scheduling zeroOracle
               [taskA, taskB] 12).completions).foldl max 0)) :=
  ⟨⟨by decide, by decide, by decide⟩,
   response_time_accounting zeroOracle [taskA, taskB] 12
     (by decide) (by decide) (by decide)⟩

/-- C8.  The embedding makes the random source an explicit parameter
(the draw oracle), so a run is a pure function of (oracle, task set,
horizon): two runs with the same fixed oracle over the same task set
and horizon produce identical schedule logs and identical
task-id-to-wcrt maps. -/
theorem scheduling_deterministic (ω : Oracle) (tasks : List Task) (sim : Int)
    (r1 r2 : SchedState)
    (h1 : rate_monotonic_scheduling ω tasks sim = r1)
    (h2 : rate_monotonic_scheduling ω tasks sim = r2) :
    r1.log = r2.log ∧ wcrtMap r1 = wcrtMap r2 := by
  subst h1
  subst h2
  exact ⟨rfl, rfl⟩

/-- Witness for C8: two runs of the two-task scenario. -/
theorem scheduling_deterministic_witness :
    (rate_monotonic_scheduling zeroOracle [taskA, taskB] 12
       = rate_monotonic_scheduling zeroOracle [taskA, taskB] 12) ∧
    ((rate_monotonic_scheduling zeroOracle [taskA, taskB] 12).log
       = (rate_monotonic_scheduling zeroOracle [taskA, taskB] 12).log ∧
     wcrtMap (rate_monotonic_scheduling zeroOracle [taskA, taskB] 12)
       = wcrtMap (rate_monotonic_scheduling zeroOracle [taskA, taskB] 12)) :=
  ⟨rfl, scheduling_deterministic zeroOracle [taskA, taskB] 12 _ _ rfl rfl⟩

/-- C9.  The scheduler loop terminates and exits exactly when
`current_time ≥ simulation_time`: `AdvanceTime` returns 1 when the
active list is non-empty; when it is empty and a strictly future
release exists it returns `min(future releases) - current_time`, which
is ≥ 1; otherwise it returns 1.  Hence every iteration advances the
clock by at least 1; while `current_time < simulation_time` the loop
keeps iterating, once `current_time ≥ simulation_time` it stops, and
the final clock is at or past the horizon. -/
theorem loop_advances_and_terminates (ω : Oracle) (sim : Int) :
    (∀ (c : Int) (ts : List Task) (vals : List Int) (act : List Nat),
        act ≠ [] → AdvanceTime c ts vals act = 1) ∧
    (∀ (c : Int) (ts : List Task) (vals : List Int) (m : Int),
        listMin (vals.filter (fun v => decide (c < v))) = some m →
        AdvanceTime c ts vals [] = m - c ∧ 1 ≤ m - c) ∧
    (∀ (c : Int) (ts : List Task) (vals : List Int),
        listMin (vals.filter (fun v => decide (c < v))) = none →
        AdvanceTime c ts vals [] = 1) ∧
    (∀ s : SchedState, s.current_time + 1 ≤ (schedStep ω s).current_time) ∧
    (∀ s : SchedState, s.current_time < sim →
        schedLoop ω sim s = schedLoop ω sim (schedStep ω s)) ∧
    (∀ s : SchedState, ¬ s.current_time < sim → schedLoop ω sim s = s) ∧
    (∀ s : SchedState, sim ≤ (schedLoop ω sim s).current_time) := by
  refine ⟨fun c ts vals act h => AdvanceTime_of_active h,
          fun c ts vals m h => ⟨AdvanceTime_idle_some h, ?_⟩,
          fun c ts vals h => AdvanceTime_idle_none h,
          schedStep_current_le ω,
          schedLoop_eq_step ω sim,
          schedLoop_eq_done ω sim,
          schedLoop_final_ge ω sim⟩
  have hmem := listMin_mem h
  have : c < m := by simpa using (List.mem_filter.mp hmem).2
  omega

/-- C6.  `remaining_time` is never negative: it is non-negative for
every task at every loop iterate and in the final state of any run
(given non-negative initial values, as produced by the constructor);
and `execute(units)` sets `remaining_time` to
`max 0 (remaining_time - units)` and reports completion exactly when
the new remaining time is 0. -/
theorem remaining_time_nonneg (ω : Oracle) (tasks : List Task) (sim : Int)
    (hinit : ∀ t ∈ tasks, 0 ≤ t.remaining_time) :
    (∀ n : Nat, ∀ t ∈ ((schedStep ω)^[n] (initState tasks)).tasks,
        0 ≤ t.remaining_time) ∧
    (∀ t ∈ (rate_monotonic_scheduling ω tasks sim).tasks, 0 ≤ t.remaining_time) ∧
    (∀ (t : Task) (u : Int), 0 ≤ u →
      (t.execute u).1.remaining_time = max 0 (t.remaining_time - u) ∧
      ((t.execute u).2 = true ↔ (t.execute u).1.remaining_time = 0)) := by
  refine ⟨?_, ?_, ?_⟩
  · intro n
    induction n with
    | zero => exact hinit
    | succ n ih =>
      rw [Function.iterate_succ_apply']
      exact schedStep_remaining_nonneg ω _ ih
  · exact schedLoop_invariant ω sim
      (fun s => ∀ t ∈ s.tasks, 0 ≤ t.remaining_time)
      (schedStep_remaining_nonneg ω) (initState tasks) hinit
  · intro t u _
    constructor
    · rfl
    · simp [Task.execute]

/-- Witness for C6 at the two-task scenario's task set. -/
theorem remaining_time_nonneg_witness :
    (∀ t ∈ [taskA, taskB], 0 ≤ t.remaining_time) ∧
    ((∀ n : Nat, ∀ t ∈ ((schedStep zeroOracle)^[n] (initState [taskA, taskB])).tasks,
        0 ≤ t.remaining_time) ∧
     (∀ t ∈ (rate_monotonic_scheduling zeroOracle [taskA, taskB] 12).tasks,
        0 ≤ t.remaining_time) ∧
     (∀ (t : Task) (u : Int), 0 ≤ u →
       (t.execute u).1.remaining_time = max 0 (t.remaining_time - u) ∧
       ((t.execute u).2 = true ↔ (t.execute u).1.remaining_time = 0))) :=
  ⟨by decide, remaining_time_nonneg zeroOracle [taskA, taskB] 12 (by decide)⟩

/-- C10 (counterexample to the claim as stated).  A non-empty task set
whose single task has period 0 (which no validation rejects): the task
releases once at tick 0 and its next release time stays 0, so it never
releases again, and once its job completes the log receives idle
entries — with a non-empty task set. -/
theorem idle_with_nonempty_tasks :
    [taskZ] ≠ [] ∧
    (1, LogEntry.idle) ∈ (rate_monotonic_scheduling zeroOracle [taskZ] 3).log := by
  have hb : rate_monotonic_scheduling zeroOracle [taskZ] 3
      = schedRun zeroOracle 3 3 (initState [taskZ]) := by
    rw [rate_monotonic_scheduling]
    exact schedLoop_eq_schedRun zeroOracle 3 3 _ (by decide)
  exact ⟨by decide, by rw [hb]; decide⟩

/-- C10 (amended).  For every non-empty task set in which every task's
period is at least 1, the schedule log never contains an idle entry:
first releases are at time 0, so the first iteration dispatches a job,
and whenever the active list empties the idle-skip advance jumps the
clock exactly onto the next release instant, so every iteration's
release step leaves at least one active job. -/
theorem no_idle_when_periods_positive (ω : Oracle) (tasks : List Task)
    (sim : Int) (hne : tasks ≠ []) (hper : ∀ t ∈ tasks, 1 ≤ t.period) :
    ∀ e ∈ (rate_monotonic_scheduling ω tasks sim).log, e.2 ≠ LogEntry.idle := by
  have hinv := schedLoop_invariant ω sim
    (fun st => st.tasks ≠ [] ∧ (∀ t ∈ st.tasks, 1 ≤ t.period) ∧
      (∀ t ∈ st.tasks, st.current_time ≤ st.releases t.task_id) ∧
      (st.active_jobs ≠ [] ∨
        ∃ t ∈ st.tasks, st.releases t.task_id = st.current_time) ∧
      (∀ e ∈ st.log, e.2 ≠ LogEntry.idle))
    (by
      intro st hst
      obtain ⟨h1, h2, h3, h4, h5⟩ := hst
      obtain ⟨⟨g1, g2, g3, g4⟩, glog⟩ := schedStep_no_idle_inv ω st h1 h2 h3 h4
      refine ⟨g1, g2, g3, g4, ?_⟩
      intro e he
      rcases glog e he with h | h
      · exact h5 e h
      · exact h)
    (initState tasks)
    (by
      refine ⟨hne, hper, fun t ht => le_refl 0, ?_, ?_⟩
      · right
        obtain ⟨t, ht⟩ := List.exists_mem_of_ne_nil tasks hne
        exact ⟨t, ht, rfl⟩
      · intro e he
        simp [initState] at he)
  exact hinv.2.2.2.2

/-- Witness for C10 (amended) at the one-task set {A}. -/
theorem no_idle_when_periods_positive_witness :
    (([taskA] : List Task) ≠ [] ∧ (∀ t ∈ [taskA], 1 ≤ t.period)) ∧
    (∀ e ∈ (rate_monotonic_scheduling zeroOracle [taskA] 4).log,
      e.2 ≠ LogEntry.idle) :=
  ⟨⟨by decide, by decide⟩,
   no_idle_when_periods_positive zeroOracle [taskA] 4 (by decide) (by decide)⟩

/-- Witness for C9 at concrete instances of each conditional clause. -/
theorem loop_advances_and_terminates_witness :
    AdvanceTime 0 [] [3] [0] = 1 ∧
    (AdvanceTime 1 [] [5] [] = 5 - 1 ∧ 1 ≤ (5 : Int) - 1) ∧
    AdvanceTime 5 [] [3] [] = 1 ∧
    (initState []).current_time + 1 ≤ (schedStep zeroOracle (initState [])).current_time ∧
    schedLoop zeroOracle 1 (initState [])
      = schedLoop zeroOracle 1 (schedStep zeroOracle (initState [])) ∧
    schedLoop zeroOracle 0 (initState []) = initState [] ∧
    0 ≤ (schedLoop zeroOracle 0 (initState [])).current_time := by
  obtain ⟨h1, h2, h3, h4, h5, -, -⟩ := loop_advances_and_terminates zeroOracle 1
  obtain ⟨-, -, -, -, -, h6, h7⟩ := loop_advances_and_terminates zeroOracle 0
  exact ⟨h1 0 [] [3] [0] (by decide),
         h2 1 [] [5] 5 (by decide),
         h3 5 [] [3] (by decide),
         h4 (initState []),
         h5 (initState []) (by decide),
         h6 (initState []) (by decide),
         h7 (initState [])⟩

end RMSim
